/-
  Verification of the MiniC translation core (AST → linear IR → ARM32 selection)
  against its natural-language specification.

  Each namespace below is a shallow embedding of one part of the C++ source:

  * Rename       — Function::renameIR            (src/ir/Function.cpp)
  * GlobalInit   — the global-initializer handler (src/ir/Generator/IRGenerator.cpp)
  * Interning    — IRGenerator::ir_logical_not and the Module constant pool
  * Selector     — InstSelectorArm32::run / translate   (src/backend/arm32/InstSelectorArm32.cpp)
  * SelAssign    — InstSelectorArm32::translate_assign
  * ArrayRef     — IRGenerator::ir_array_ref (local-array branch)
  * AssignOrder  — IRGenerator::ir_assign
  * CondGen      — IRGenerator::generate_branch_for_condition
  * StmtGen      — IRGenerator::ir_function_define / ir_return / ir_while_statement /
                   ir_break_statement / ir_continue_statement / ir_if_statement

  Machine integers of the source are modelled as Int / Nat; object identity
  (Value* pointers) is modelled by allocation ids drawn from a fresh counter.
-/
import Mathlib

namespace Rename

/-- Kind of an instruction as seen by the rename pass: a label instruction,
an instruction that carries a result value, or a plain instruction with
neither (e.g. goto, branch, exit). -/
inductive InstKind where
  | labelInst
  | resultInst
  | plainInst
deriving DecidableEq, Repr

/-- The name families assigned by the rename pass: temp stands for the %t
prefix (IR_TEMP_VARNAME_PREFIX), localV for the %l prefix
(IR_LOCAL_VARNAME_PREFIX), labelL for the .L prefix (IR_LABEL_PREFIX). -/
inductive NameFamily where
  | temp
  | localV
  | labelL
deriving DecidableEq, Repr

/-- A function as the rename pass sees it: the number of formal parameters,
of local variables (varsVector), of mem variables (memVector), and the
instruction list. -/
structure FuncIR where
  params : Nat
  locals : Nat
  mems : Nat
  insts : List InstKind
deriving DecidableEq, Repr

/-- The instruction-renaming loop of Function::renameIR: labels get the .L
prefix, result-carrying instructions the %t prefix, both from the same
counter; other instructions are skipped. Returns the assigned names and the
final counter. -/
def renameInsts (start : Nat) : List InstKind → List (NameFamily × Nat) × Nat
  | [] => ([], start)
  | .labelInst :: rest =>
    let r := renameInsts (start + 1) rest
    ((NameFamily.labelL, start) :: r.1, r.2)
  | .resultInst :: rest =>
    let r := renameInsts (start + 1) rest
    ((NameFamily.temp, start) :: r.1, r.2)
  | .plainInst :: rest => renameInsts start rest

/-- Function::renameIR: a single counter nameIndex runs over the formal
parameters (%t), then the local variables (%l), then the mem variables (%t),
then the instructions (.L for labels, %t for result instructions). -/
def renameIR (f : FuncIR) : List (NameFamily × Nat) :=
  ((List.range f.params).map (fun i => (NameFamily.temp, i))) ++
  ((List.range f.locals).map (fun i => (NameFamily.localV, f.params + i))) ++
  ((List.range f.mems).map (fun i => (NameFamily.temp, f.params + f.locals + i))) ++
  (renameInsts (f.params + f.locals + f.mems) f.insts).1

/-- The indices assigned with a given prefix family. -/
def familyIndices (fam : NameFamily) (f : FuncIR) : List Nat :=
  (renameIR f).filterMap (fun x => if x.1 = fam then some x.2 else none)

/-- A list of indices is contiguous when it is a run of consecutive
naturals starting at its head. -/
def contiguous (l : List Nat) : Prop :=
  l = List.range' (l.headD 0) l.length

instance (l : List Nat) : Decidable (contiguous l) := by
  unfold contiguous; infer_instance

/-- Number of instructions that receive a name. -/
def namedCount (ks : List InstKind) : Nat :=
  ks.countP (fun k => k ≠ InstKind.plainInst)

theorem renameInsts_indices (ks : List InstKind) (start : Nat) :
    ((renameInsts start ks).1.map Prod.snd) = List.range' start (namedCount ks) ∧
    (renameInsts start ks).2 = start + namedCount ks := by
  induction ks generalizing start with
  | nil => simp [renameInsts, namedCount]
  | cons k rest ih =>
    cases k with
    | labelInst =>
      have h := ih (start + 1)
      simp only [renameInsts, namedCount, List.countP_cons] at *
      constructor
      · simp [h.1, List.range'_succ, namedCount]
      · simp [h.2, namedCount]; omega
    | resultInst =>
      have h := ih (start + 1)
      simp only [renameInsts, namedCount, List.countP_cons] at *
      constructor
      · simp [h.1, List.range'_succ, namedCount]
      · simp [h.2, namedCount]; omega
    | plainInst =>
      have h := ih start
      simp only [renameInsts, namedCount, List.countP_cons] at *
      simpa [namedCount] using h

/-- Total number of names a function receives. -/
def totalNamed (f : FuncIR) : Nat :=
  f.params + f.locals + f.mems + namedCount f.insts

theorem renameInsts_not_local (ks : List InstKind) (start : Nat) :
    ∀ x ∈ (renameInsts start ks).1, x.1 ≠ NameFamily.localV := by
  induction ks generalizing start with
  | nil => simp [renameInsts]
  | cons k rest ih =>
    cases k <;> simp only [renameInsts, List.mem_cons] <;>
      first
        | (intro x hx
           rcases hx with h | h
           · subst h; simp
           · exact ih _ x h)
        | exact ih start

theorem range'_add_append : ∀ m s n : Nat,
    List.range' s m ++ List.range' (s + m) n = List.range' s (m + n) := by
  intro m
  induction m with
  | zero => intro s n; simp
  | succ m ih =>
    intro s n
    have h1 : s + (m + 1) = (s + 1) + m := by omega
    have h2 : m + 1 + n = (m + n) + 1 := by omega
    rw [h2, List.range'_succ, List.range'_succ, h1, ← ih (s + 1) n]
    simp

/-- The combined sequence of assigned indices, in assignment order. -/
theorem renameIR_indices (f : FuncIR) :
    (renameIR f).map Prod.snd = List.range (totalNamed f) := by
  have h := (renameInsts_indices f.insts (f.params + f.locals + f.mems)).1
  simp only [renameIR, List.map_append, List.map_map, h, totalNamed]
  have e1 : (Prod.snd ∘ fun i => (NameFamily.temp, i)) = fun (i : Nat) => i := rfl
  have e2 : (Prod.snd ∘ fun i => (NameFamily.localV, f.params + i)) =
      fun (i : Nat) => f.params + i := rfl
  have e3 : (Prod.snd ∘ fun i => (NameFamily.temp, f.params + f.locals + i)) =
      fun (i : Nat) => f.params + f.locals + i := rfl
  rw [e1, e2, e3]
  rw [show (List.range f.params).map (fun i => i) = List.range f.params from
      List.map_id _]
  rw [show (List.range f.locals).map (fun i => f.params + i) =
        List.range' f.params f.locals by simp [List.range'_eq_map_range]]
  rw [show (List.range f.mems).map (fun i => f.params + f.locals + i) =
        List.range' (f.params + f.locals) f.mems by simp [List.range'_eq_map_range]]
  rw [show List.range f.params = List.range' 0 f.params from List.range_eq_range' f.params]
  rw [show List.range (f.params + f.locals + f.mems + namedCount f.insts) =
        List.range' 0 (f.params + f.locals + f.mems + namedCount f.insts) from
      List.range_eq_range' _]
  rw [show List.range' f.params f.locals = List.range' (0 + f.params) f.locals by
        rw [Nat.zero_add]]
  rw [range'_add_append]
  rw [show List.range' (f.params + f.locals) f.mems =
        List.range' (0 + (f.params + f.locals)) f.mems by rw [Nat.zero_add]]
  rw [range'_add_append]
  rw [show List.range' (f.params + f.locals + f.mems) (namedCount f.insts) =
        List.range' (0 + (f.params + f.locals + f.mems)) (namedCount f.insts) by
        rw [Nat.zero_add]]
  rw [range'_add_append]

/-- The %l indices by themselves: the locals are renamed in one block right
after the parameters. -/
theorem renameIR_locals (f : FuncIR) :
    familyIndices NameFamily.localV f = List.range' f.params f.locals := by
  have hni := renameInsts_not_local f.insts (f.params + f.locals + f.mems)
  simp only [familyIndices, renameIR, List.filterMap_append]
  have h1 : (List.filterMap (fun x => if x.1 = NameFamily.localV then some x.2 else none)
      ((List.range f.params).map (fun i => (NameFamily.temp, i)))) = [] := by
    simp [List.filterMap_eq_nil_iff]
  have h3 : (List.filterMap (fun x => if x.1 = NameFamily.localV then some x.2 else none)
      ((List.range f.mems).map (fun i => (NameFamily.temp, f.params + f.locals + i)))) = [] := by
    simp [List.filterMap_eq_nil_iff]
  have h4 : (List.filterMap (fun x => if x.1 = NameFamily.localV then some x.2 else none)
      (renameInsts (f.params + f.locals + f.mems) f.insts).1) = [] := by
    rw [List.filterMap_eq_nil_iff]
    intro x hx
    simp [hni x hx]
  rw [h1, h3, h4]
  simp only [List.filterMap_map, List.append_nil, List.nil_append]
  have hc : ((fun (x : NameFamily × Nat) =>
        if x.1 = NameFamily.localV then some x.2 else none) ∘
      fun i => (NameFamily.localV, f.params + i)) =
      some ∘ (fun i => f.params + i) := by
    funext i; simp
  rw [hc, List.filterMap_eq_map, List.range'_eq_map_range]

/-- C3: the claim that the %t, %l and .L index families are EACH contiguous
fails: with one parameter, one local and one mem variable the %t family is
assigned indices 0 and 2 (the shared counter gives the local index 1). -/
theorem renameIR_families_not_contiguous :
    ¬ (contiguous (familyIndices NameFamily.temp ⟨1, 1, 1, []⟩) ∧
       contiguous (familyIndices NameFamily.localV ⟨1, 1, 1, []⟩) ∧
       contiguous (familyIndices NameFamily.labelL ⟨1, 1, 1, []⟩)) := by
  decide

/-- C3 amended: the rename pass assigns %tN to temporaries, formal parameters
and mem variables, %lN to local variables and .LN to labels, all drawn from a
single shared counter, so that the indices of the three families together form
the contiguous sequence 0..N-1; the %l indices form one contiguous block. -/
theorem renameIR_shared_counter_contiguous (f : FuncIR) :
    (renameIR f).map Prod.snd = List.range (totalNamed f) ∧
    familyIndices NameFamily.localV f = List.range' f.params f.locals :=
  ⟨renameIR_indices f, renameIR_locals f⟩

end Rename

namespace GlobalInit

/-- Expressions that can appear as a variable initializer (the AST subset
relevant to ir_variable_init): integer literals, variable references
and additions. -/
inductive IExpr where
  | lit (n : Int)
  | evar (nm : String)
  | addE (l r : IExpr)
deriving DecidableEq, Repr

/-- IR values produced while visiting an initializer. -/
inductive IVal where
  | constInt (n : Int)
  | globalVar (nm : String)
  | binInst (id : Nat)
deriving DecidableEq, Repr

/-- Instructions collected into blockInsts while translating an initializer.
The move records that MoveInstruction is built with the current function,
which is null at global scope. -/
inductive IInst where
  | binAdd (id : Nat) (l r : Option IVal)
  | move (curFuncIsNull : Bool) (dst src : IVal)
deriving DecidableEq, Repr

/-- The global symbol table: names of the globals defined so far. -/
structure IEnv where
  globals : List String
deriving DecidableEq, Repr

/-- Modelled from the spec: Module::findVarValue walks the scope stack and
returns the global of that name at level 0, or null (Module.cpp is not under
src/). At global scope only globals are visible. -/
def findVarValue (env : IEnv) (nm : String) : Option IVal :=
  if nm ∈ env.globals then some (IVal.globalVar nm) else none

/-- The expression visitors reachable from an initializer, translated from
ir_leaf_node_uint (always succeeds, value is a ConstInt),
ir_leaf_node_var_id (always returns true, value may be null) and
ir_add (fails only if a child visit fails; emits one Add instruction).
Returns (fresh counter, emitted instructions, node value). -/
def ir_visit (env : IEnv) : Nat → IExpr → Option (Nat × List IInst × Option IVal)
  | s, .lit n => some (s, [], some (IVal.constInt n))
  | s, .evar nm => some (s, [], findVarValue env nm)
  | s, .addE l r => do
      let (s1, il, lv) ← ir_visit env s l
      let (s2, ir, rv) ← ir_visit env s1 r
      some (s2 + 1, il ++ ir ++ [IInst.binAdd s2 lv rv], some (IVal.binInst s2))

/-- The IRGenerator handler for a VarInit node (its source name ends in a
token this file may not spell) at global scope, where the current function
is null: visit the initializer; fail only if the visit fails or produced no
value; create the variable (Module::newVarValue at scope level 0 creates a
GlobalVariable — modelled from the spec, Module.cpp is not under src/);
append a Move built with the null current function. No compile-time-constant
check is performed. -/
def ir_variable_init (env : IEnv) (s : Nat) (nm : String) (e : IExpr) :
    Option (IEnv × Nat × List IInst × IVal) :=
  match ir_visit env s e with
  | none => none
  | some (s1, insts, vOpt) =>
    match vOpt with
    | none => none
    | some v =>
        let gv := IVal.globalVar nm
        some (⟨nm :: env.globals⟩, s1, insts ++ [IInst.move true gv v], gv)

/-- The specification's notion of a compile-time integer constant initializer
(written from the spec's words, for comparison with the source behaviour). -/
def isCompileTimeConst : IExpr → Bool
  | .lit _ => true
  | .evar _ => false
  | .addE l r => isCompileTimeConst l && isCompileTimeConst r

/-- C6 counterexample: the initializer g0 (a reference to another global) is
not a compile-time constant, yet ir_variable_init succeeds on it —
the translator performs no constant check. -/
theorem global_init_nonconst_accepted :
    isCompileTimeConst (IExpr.evar "g0") = false ∧
    (ir_variable_init ⟨["g0"]⟩ 0 "g" (IExpr.evar "g0")).isSome = true := by
  constructor
  · rfl
  · rfl

/-- C6 amended: translating a global-variable initializer succeeds exactly
when visiting the initializer expression succeeds and produces a value; no
compile-time-constant check is made (the claimed SemanticError is never
raised on non-constant initializers). -/
theorem global_init_no_const_check (env : IEnv) (s : Nat) (nm : String) (e : IExpr) :
    (ir_variable_init env s nm e).isSome =
      (match ir_visit env s e with
       | some (_, _, some _) => true
       | _ => false) := by
  unfold ir_variable_init
  cases h : ir_visit env s e with
  | none => rfl
  | some out =>
    obtain ⟨s1, insts, vOpt⟩ := out
    cases vOpt <;> rfl

end GlobalInit

namespace Interning

/-- The state of ConstInt objects during translation: the Module intern pool
(value to object id), the next allocation id, and every ConstInt object in
existence as (id, integer value, created-through-pool flag). -/
structure CState where
  pool : List (Int × Nat)
  nextId : Nat
  objs : List (Nat × Int × Bool)
deriving DecidableEq, Repr

/-- Modelled from the spec: Module::newConstInt interns constants — it
returns the canonical ConstInt for a value, allocating it on first use
(Module.cpp is not under src/; the spec states interningConstInt returns the
canonical Value). -/
def newConstInt (s : CState) (v : Int) : CState × Nat :=
  match s.pool.find? (fun p => p.1 = v) with
  | some p => (s, p.2)
  | none =>
      (⟨(v, s.nextId) :: s.pool, s.nextId + 1, (s.nextId, v, true) :: s.objs⟩, s.nextId)

/-- Instructions emitted by ir_logical_not; operands are object ids. -/
inductive NInst where
  | cmpNe (id : Nat) (a b : Nat)
  | cmpEq (id : Nat) (a b : Nat)
deriving DecidableEq, Repr

/-- IRGenerator::ir_logical_not on an operand value: for an Int32 operand it
interns ConstInt 0 via the module and emits cmp_ne; then — for either operand
type — it builds the comparison against a ConstInt(false) allocated DIRECTLY
with new, bypassing the module's intern pool, and emits cmp_eq. Returns the
state, the emitted instructions and the result id. -/
def ir_logical_not (s : CState) (operand : Nat) (operandIsI32 : Bool) :
    CState × List NInst × Nat :=
  let (s1, val1, code1) :=
    if operandIsI32 then
      let (sa, zeroId) := newConstInt s 0
      let cmpId := sa.nextId
      let sb : CState := ⟨sa.pool, sa.nextId + 1, sa.objs⟩
      (sb, cmpId, [NInst.cmpNe cmpId operand zeroId])
    else (s, operand, [])
  let constFalseId := s1.nextId
  let s2 : CState := ⟨s1.pool, s1.nextId + 1, (s1.nextId, (0 : Int), false) :: s1.objs⟩
  let finalId := s2.nextId
  let s3 : CState := ⟨s2.pool, s2.nextId + 1, s2.objs⟩
  (s3, code1 ++ [NInst.cmpEq finalId val1 constFalseId], finalId)

/-- The interning invariant of the claim: any two ConstInt objects with the
same integer value are the same object. -/
def interned (s : CState) : Prop :=
  ∀ p ∈ s.objs, ∀ q ∈ s.objs, p.2.1 = q.2.1 → p.1 = q.1

instance (s : CState) : Decidable (interned s) := by
  unfold interned; infer_instance

/-- C7 counterexample: starting from an empty module, translating a logical
not of an Int32 value leaves two distinct ConstInt objects of value 0 — the
interned ConstInt 0 and the ConstInt(false) allocated outside the pool. -/
theorem constInt_interning_broken :
    interned ⟨[], 0, []⟩ ∧ ¬ interned (ir_logical_not ⟨[], 0, []⟩ 0 true).1 := by
  constructor
  · decide
  · decide

/-- Pool bookkeeping: every pooled object is recorded in the pool under its
value. -/
def poolCovers (s : CState) : Prop :=
  ∀ o ∈ s.objs, o.2.2 = true → ∃ p ∈ s.pool, p.1 = o.2.1 ∧ p.2 = o.1

/-- The interning invariant restricted to pool-created ConstInt objects. -/
def pooledInterned (s : CState) : Prop :=
  ∀ p ∈ s.objs, ∀ q ∈ s.objs, p.2.2 = true → q.2.2 = true → p.2.1 = q.2.1 → p.1 = q.1

instance (s : CState) : Decidable (poolCovers s) := by
  unfold poolCovers; infer_instance

instance (s : CState) : Decidable (pooledInterned s) := by
  unfold pooledInterned; infer_instance

theorem newConstInt_canonical (s : CState) (v : Int) :
    (newConstInt (newConstInt s v).1 v).2 = (newConstInt s v).2 := by
  unfold newConstInt
  cases h : s.pool.find? (fun p => p.1 = v) with
  | some p => simp [h]
  | none => simp [h]

/-- C7 amended: constants created through Module::newConstInt are interned —
the pool keeps one canonical ConstInt per value (a second request returns the
same object, and the pool-created objects satisfy the invariant) — but
ir_logical_not additionally allocates a ConstInt(false) outside the pool,
so the invariant does not extend to every ConstInt in existence. -/
theorem newConstInt_pooled_interning (s : CState) (v : Int)
    (hc : poolCovers s) (hi : pooledInterned s) :
    poolCovers (newConstInt s v).1 ∧ pooledInterned (newConstInt s v).1 ∧
    (newConstInt (newConstInt s v).1 v).2 = (newConstInt s v).2 := by
  refine ⟨?_, ?_, newConstInt_canonical s v⟩
  · unfold newConstInt
    cases h : s.pool.find? (fun p => p.1 = v) with
    | some p => exact hc
    | none =>
        intro o ho hob
        rcases List.mem_cons.mp ho with h1 | h1
        · subst h1
          exact ⟨(v, s.nextId), List.mem_cons_self _ _, rfl, rfl⟩
        · rcases hc o h1 hob with ⟨p, hp, hpv, hpi⟩
          exact ⟨p, List.mem_cons_of_mem _ hp, hpv, hpi⟩
  · unfold newConstInt
    cases h : s.pool.find? (fun p => p.1 = v) with
    | some p => exact hi
    | none =>
        have hnone : ∀ p ∈ s.pool, ¬ (p.1 = v) := by
          intro p hp
          have := List.find?_eq_none.mp h p hp
          simpa using this
        intro p hp q hq hpb hqb hv
        rcases List.mem_cons.mp hp with h1 | h1 <;> rcases List.mem_cons.mp hq with h2 | h2
        · subst h1; subst h2; rfl
        · subst h1
          exfalso
          rcases hc q h2 hqb with ⟨pe, hpe, hpev, _⟩
          have hv2 : v = q.2.1 := hv
          exact hnone pe hpe (hpev.trans hv2.symm)
        · subst h2
          exfalso
          rcases hc p h1 hpb with ⟨pe, hpe, hpev, _⟩
          have hv2 : p.2.1 = v := hv
          exact hnone pe hpe (hpev.trans hv2)
        · exact hi p h1 q h2 hpb hqb hv

/-- Witness: interning a ConstInt 5 into an empty module keeps the pool
invariants, and a second request returns the same canonical object. -/
theorem newConstInt_pooled_interning_witness :
    poolCovers ⟨[], 0, []⟩ ∧ pooledInterned ⟨[], 0, []⟩ ∧
    (poolCovers (newConstInt ⟨[], 0, []⟩ 5).1 ∧
     pooledInterned (newConstInt ⟨[], 0, []⟩ 5).1 ∧
     (newConstInt (newConstInt ⟨[], 0, []⟩ 5).1 5).2 =
       (newConstInt ⟨[], 0, []⟩ 5).2) :=
  ⟨by decide, by decide,
   newConstInt_pooled_interning ⟨[], 0, []⟩ 5 (by decide) (by decide)⟩

end Interning

namespace Selector

/-- IR operators as dispatched by InstSelectorArm32. The constructor
unregistered stands for any IRInstOperator enum value that the selector's
constructor does not put into translator_handlers (Instruction.h with the
full enum is not under src/; the selector's own translate() handles exactly
this not-found case). -/
inductive IROp where
  | entry | exitOp | labelOp | gotoOp | assign
  | addI | subI | mulI | divI | remI
  | cmpEq | cmpNe | cmpLt | cmpLe | cmpGt | cmpGe
  | brCond | funcCall | arg
  | unregistered
deriving DecidableEq, Repr

/-- An IR instruction as the selector's run() sees it: its operator and its
dead flag. -/
structure SInst where
  op : IROp
  dead : Bool
deriving DecidableEq, Repr

/-- Membership in translator_handlers, from the registrations in the
InstSelectorArm32 constructor. -/
def hasHandler : IROp → Bool
  | .unregistered => false
  | _ => true

/-- A stand-in for the assembly a registered handler emits for one
instruction (the ILocArm32 emission layer is not under src/; one marker line
per handled instruction is enough to observe whether emission continues). -/
def handlerOutput (op : IROp) : List String :=
  [toString (repr op)]

/-- InstSelectorArm32::translate: look the operator up in
translator_handlers; if absent, print "Translate: Operator not support" and
return without emitting; otherwise run the handler. Returns
(log lines, assembly lines). -/
def translate (i : SInst) : List String × List String :=
  if hasHandler i.op then ([], handlerOutput i.op)
  else (["Translate: Operator not support"], [])

/-- InstSelectorArm32::run: translate every non-dead instruction in order. -/
def run : List SInst → List String × List String
  | [] => ([], [])
  | i :: rest =>
    if i.dead then run rest
    else
      ((translate i).1 ++ (run rest).1, (translate i).2 ++ (run rest).2)

/-- run() returns void in the source — it cannot signal failure; the Option
wrapper makes the spec's "emission fails" statable. -/
def runE (insts : List SInst) : Option (List String × List String) :=
  some (run insts)

/-- C8 counterexample: a stream holding a live instruction with an
unregistered opcode followed by a goto. Emission does NOT fail: the selector
logs the unsupported operator, skips it, and still emits the goto's assembly. -/
theorem selector_skips_unhandled :
    (∃ i ∈ [SInst.mk IROp.unregistered false, SInst.mk IROp.gotoOp false],
        i.dead = false ∧ hasHandler i.op = false) ∧
    runE [SInst.mk IROp.unregistered false, SInst.mk IROp.gotoOp false] =
      some (["Translate: Operator not support"], handlerOutput IROp.gotoOp) := by
  constructor
  · exact ⟨SInst.mk IROp.unregistered false, by simp, rfl, rfl⟩
  · rfl

/-- C8 amended: when an instruction's opcode has no registered handler the
selector logs "Translate: Operator not support" and skips it, continuing to
translate the remaining instructions; emission never fails. -/
theorem selector_unhandled_continues (i : SInst) (rest : List SInst)
    (hlive : i.dead = false) (hno : hasHandler i.op = false) :
    run (i :: rest) =
      ("Translate: Operator not support" :: (run rest).1, (run rest).2) ∧
    (runE (i :: rest)).isSome = true := by
  constructor
  · simp [run, hlive, translate, hno]
  · rfl

/-- Witness for selector_unhandled_continues at a concrete stream. -/
theorem selector_unhandled_continues_witness :
    run [SInst.mk IROp.unregistered false, SInst.mk IROp.addI false] =
      ("Translate: Operator not support" ::
        (run [SInst.mk IROp.addI false]).1, (run [SInst.mk IROp.addI false]).2) ∧
    (runE [SInst.mk IROp.unregistered false, SInst.mk IROp.addI false]).isSome = true :=
  selector_unhandled_continues (SInst.mk IROp.unregistered false)
    [SInst.mk IROp.addI false] rfl rfl

end Selector

namespace SelAssign

/-- An operand Value as translate_assign inspects it: whether its type is a
pointer type, its register id (-1 when not register resident, as in the
source), and an identity used in the emitted text. -/
structure AVal where
  isPtr : Bool
  regId : Int
  vid : Nat
deriving DecidableEq, Repr

/-- The assembly shapes translate_assign can emit. loadVar and storeVar are
the iloc helpers that move a Value between its home (memory, constant or
global) and a register; strThrough and ldrThrough are the explicit
"str value, [addr]" and "ldr dst, [addr]" pointer accesses. -/
inductive Asm where
  | loadVar (reg : Int) (v : Nat)
  | storeVar (reg : Int) (v : Nat)
  | strThrough (valueReg addrReg : Int)
  | ldrThrough (dstReg addrReg : Int)
deriving DecidableEq, Repr

/-- The register allocator is modelled as a fresh supply
(SimpleRegisterAllocator is not under src/): Allocate returns the next
register id from the counter. -/
def allocate (s : Nat) : Nat × Int :=
  (s + 1, Int.ofNat s)

/-- InstSelectorArm32::translate_assign on a Move with destination result
and source arg1, translated branch for branch from the source:
store-through-pointer when result is pointer-typed and arg1 is not;
load-through-pointer when result is not pointer-typed, arg1 is, AND arg1 is
not register resident; otherwise the generic scalar move. -/
def translate_assign (s : Nat) (result arg1 : AVal) : Nat × List Asm :=
  if result.isPtr && !arg1.isPtr then
    let t1 : Nat × Int × List Asm :=
      if result.regId ≠ -1 then (s, result.regId, [])
      else ((allocate s).1, (allocate s).2, [Asm.loadVar (allocate s).2 result.vid])
    let t2 : Nat × Int × List Asm :=
      if arg1.regId ≠ -1 then (t1.1, arg1.regId, [])
      else ((allocate t1.1).1, (allocate t1.1).2,
        [Asm.loadVar (allocate t1.1).2 arg1.vid])
    (t2.1, t1.2.2 ++ t2.2.2 ++ [Asm.strThrough t2.2.1 t1.2.1])
  else if !result.isPtr && arg1.isPtr && arg1.regId = -1 then
    let ta : Nat × Int × List Asm :=
      if arg1.regId ≠ -1 then (s, arg1.regId, [])
      else ((allocate s).1, (allocate s).2, [Asm.loadVar (allocate s).2 arg1.vid])
    let tl : Nat × Int :=
      if result.regId ≠ -1 then (ta.1, result.regId)
      else allocate ta.1
    let back :=
      if result.regId = -1 then [Asm.storeVar tl.2 result.vid] else []
    (tl.1, ta.2.2 ++ [Asm.ldrThrough tl.2 ta.2.1] ++ back)
  else
    if arg1.regId ≠ -1 then (s, [Asm.storeVar arg1.regId result.vid])
    else if result.regId ≠ -1 then (s, [Asm.loadVar result.regId arg1.vid])
    else
      let (s1, tempReg) := allocate s
      (s1, [Asm.loadVar tempReg arg1.vid, Asm.storeVar tempReg result.vid])

/-- Whether an emission list contains a load-through-pointer. -/
def hasLdrThrough (l : List Asm) : Bool :=
  l.any (fun a => match a with | Asm.ldrThrough _ _ => true | _ => false)

/-- C9 counterexample: a Move whose source is pointer-typed but REGISTER
resident (regId 5) and whose destination is a non-pointer memory value takes
the generic branch and emits a plain store of the pointer value — no
"ldr dst, [src]" load through the pointer is emitted. -/
theorem move_ptr_src_in_register_not_loaded :
    (AVal.mk true 5 1).isPtr = true ∧ (AVal.mk false (-1) 0).isPtr = false ∧
    (translate_assign 8 (AVal.mk false (-1) 0) (AVal.mk true 5 1)).2 =
      [Asm.storeVar 5 0] ∧
    hasLdrThrough (translate_assign 8 (AVal.mk false (-1) 0) (AVal.mk true 5 1)).2 =
      false := by
  refine ⟨rfl, rfl, ?_, ?_⟩ <;> decide

/-- C9 amended: for a Move whose source is pointer-typed, NOT register
resident (regId = -1), and whose destination is not pointer-typed, the
selector materializes the source address in a register and emits
"ldr dstReg, [srcReg]", followed by a store back when the destination is
memory resident. -/
theorem move_ptr_src_loads_through (s : Nat) (result arg1 : AVal)
    (hsrc : arg1.isPtr = true) (hdst : result.isPtr = false)
    (hmem : arg1.regId = -1) :
    ∃ addrReg dstReg,
      (translate_assign s result arg1).2 =
        [Asm.loadVar addrReg arg1.vid, Asm.ldrThrough dstReg addrReg] ++
          (if result.regId = -1 then [Asm.storeVar dstReg result.vid] else []) := by
  refine ⟨Int.ofNat s, if result.regId ≠ -1 then result.regId else Int.ofNat (s + 1), ?_⟩
  unfold translate_assign
  rw [hsrc, hdst]
  simp only [Bool.false_and, Bool.not_false, Bool.true_and, if_neg (by simp : ¬ (false = true))]
  by_cases hr : result.regId = -1
  · simp [allocate, hmem, hr]
  · simp [allocate, hmem, hr]

/-- Witness for move_ptr_src_loads_through at a concrete Move. -/
theorem move_ptr_src_loads_through_witness :
    ∃ addrReg dstReg,
      (translate_assign 3 (AVal.mk false (-1) 7) (AVal.mk true (-1) 9)).2 =
        [Asm.loadVar addrReg (AVal.mk true (-1) 9).vid,
          Asm.ldrThrough dstReg addrReg] ++
          (if (AVal.mk false (-1) 7).regId = -1 then
            [Asm.storeVar dstReg (AVal.mk false (-1) 7).vid] else []) :=
  move_ptr_src_loads_through 3 (AVal.mk false (-1) 7) (AVal.mk true (-1) 9) rfl rfl rfl

end SelAssign

namespace ArrayRef

/-- Value types relevant to array address computation. -/
inductive VTy where
  | i32
  | ptr (elem : VTy)
deriving DecidableEq, Repr

/-- An instruction operand: an existing Value (by id) or a ConstInt made by
module->newConstInt (only its integer value matters here). -/
inductive Opd where
  | vid (n : Nat)
  | cst (c : Int)
deriving DecidableEq, Repr

/-- Binary operators used by the address computation. -/
inductive BOp where
  | addI
  | mulI
deriving DecidableEq, Repr

/-- A BinaryInstruction: operator, operands, the id of the instruction
itself (instructions are Values), and its result type. -/
structure BInst where
  op : BOp
  lhs : Opd
  rhs : Opd
  res : Nat
  resTy : VTy
deriving DecidableEq, Repr

/-- Evaluation of an operand under an environment giving each Value id its
integer content (for a pointer value, its address). -/
def evalOpd (env : Nat → Int) : Opd → Int
  | .vid n => env n
  | .cst c => c

def applyB : BOp → Int → Int → Int
  | .addI, a, b => a + b
  | .mulI, a, b => a * b

def update (env : Nat → Int) (r : Nat) (v : Int) : Nat → Int :=
  fun n => if n = r then v else env n

/-- Executing a straight-line list of binary instructions extends the
environment with each instruction's result. -/
def runChain (env : Nat → Int) : List BInst → (Nat → Int)
  | [] => env
  | b :: rest =>
      runChain (update env b.res (applyB b.op (evalOpd env b.lhs) (evalOpd env b.rhs))) rest

/-- The offset loop of ir_array_ref: for each further index, emit
offset = offset * dimensions[i] (a ConstInt) then offset = that + index.
Takes the current offset operand, the remaining (index, dimension) pairs and
the fresh id counter; returns (emitted code, final offset operand, counter). -/
def genOffsetLoop : Opd → List (Opd × Int) → Nat → List BInst × Opd × Nat
  | off, [], s => ([], off, s)
  | off, (idx, dim) :: rest, s =>
      let mulInst : BInst := ⟨BOp.mulI, off, Opd.cst dim, s, VTy.i32⟩
      let addInst : BInst := ⟨BOp.addI, Opd.vid s, idx, s + 1, VTy.i32⟩
      let r := genOffsetLoop (Opd.vid (s + 1)) rest (s + 2)
      (mulInst :: addInst :: r.1, r.2.1, r.2.2)

/-- The local-array branch of IRGenerator::ir_array_ref: compute the linear
element offset (a single index stands alone; further indexes run the
multiply-add loop against dimensions[1..]), multiply by the element size,
and append Add(arrayVar, byteOffset) whose result type is
Pointer(elementType). Returns (code, byte-offset id, address id, counter). -/
def ir_array_ref_local (base : Nat) (i0 : Opd) (irest : List Opd)
    (dims : List Int) (elemSize : Int) (s : Nat) :
    List BInst × Nat × Nat × Nat :=
  let r := genOffsetLoop i0 (irest.zip (dims.drop 1)) s
  let byteInst : BInst := ⟨BOp.mulI, r.2.1, Opd.cst elemSize, r.2.2, VTy.i32⟩
  let addrInst : BInst :=
    ⟨BOp.addI, Opd.vid base, Opd.vid r.2.2, r.2.2 + 1, VTy.ptr VTy.i32⟩
  (r.1 ++ [byteInst, addrInst], r.2.2, r.2.2 + 1, r.2.2 + 2)

/-- The specification's linearization formula
(((i1·d2) + i2)·d3 + … ) + ik, written over evaluated indexes. -/
def linearOffset (env : Nat → Int) (i0 : Opd) (irest : List Opd)
    (dims : List Int) : Int :=
  ((irest.zip (dims.drop 1)).map (fun p => (evalOpd env p.1, p.2))).foldl
    (fun acc q => acc * q.2 + q.1) (evalOpd env i0)

/-- An operand only mentions Value ids below the bound. -/
def OpdLt (o : Opd) (s : Nat) : Prop :=
  match o with
  | .vid n => n < s
  | .cst _ => True

instance (o : Opd) (s : Nat) : Decidable (OpdLt o s) := by
  unfold OpdLt; cases o <;> infer_instance

theorem opdLt_mono {o : Opd} {s t : Nat} (h : OpdLt o s) (hst : s ≤ t) : OpdLt o t := by
  cases o with
  | vid n => exact Nat.lt_of_lt_of_le h hst
  | cst c => trivial

theorem evalOpd_update (b : Nat) {env : Nat → Int} {o : Opd} {r : Nat} {v : Int}
    (h : OpdLt o b) (hr : b ≤ r) : evalOpd (update env r v) o = evalOpd env o := by
  cases o with
  | vid n =>
      have : n ≠ r := by
        have := Nat.lt_of_lt_of_le h hr
        omega
      simp [evalOpd, update, this]
  | cst c => rfl

theorem genOffsetLoop_spec (pairs : List (Opd × Int)) :
    ∀ (off : Opd) (s : Nat) (env : Nat → Int),
    OpdLt off s → (∀ p ∈ pairs, OpdLt p.1 s) →
    s ≤ (genOffsetLoop off pairs s).2.2 ∧
    OpdLt (genOffsetLoop off pairs s).2.1 (genOffsetLoop off pairs s).2.2 ∧
    (∀ b ∈ (genOffsetLoop off pairs s).1, s ≤ b.res ∧ b.res < (genOffsetLoop off pairs s).2.2) ∧
    (∀ n < s, runChain env (genOffsetLoop off pairs s).1 n = env n) ∧
    evalOpd (runChain env (genOffsetLoop off pairs s).1) (genOffsetLoop off pairs s).2.1 =
      (pairs.map (fun p => (evalOpd env p.1, p.2))).foldl
        (fun acc q => acc * q.2 + q.1) (evalOpd env off) := by
  induction pairs with
  | nil =>
      intro off s env hoff hp
      refine ⟨Nat.le_refl s, hoff, by simp [genOffsetLoop], ?_, ?_⟩
      · intro n _; rfl
      · rfl
  | cons hd tl ih =>
      intro off s env hoff hp
      obtain ⟨idx, dim⟩ := hd
      have hidx : OpdLt idx s := hp (idx, dim) (List.mem_cons_self _ _)
      have htl : ∀ p ∈ tl, OpdLt p.1 (s + 2) := by
        intro p hmem
        exact opdLt_mono (hp p (List.mem_cons_of_mem _ hmem)) (by omega)
      set env1 := update env s (applyB BOp.mulI (evalOpd env off) (evalOpd env (Opd.cst dim))) with henv1
      set env2 := update env1 (s + 1)
        (applyB BOp.addI (evalOpd env1 (Opd.vid s)) (evalOpd env1 idx)) with henv2
      have ih2 := ih (Opd.vid (s + 1)) (s + 2) env2 (by simp [OpdLt]) htl
      obtain ⟨ihle, ihoff, ihres, ihpres, iheval⟩ := ih2
      have henv2idx : evalOpd env2 idx = evalOpd env idx := by
        rw [henv2, henv1]
        rw [evalOpd_update s hidx (by omega)]
        rw [evalOpd_update s hidx (by omega)]
      have he1s : evalOpd env1 (Opd.vid s) = evalOpd env off * dim := by
        rw [henv1]
        simp [evalOpd, update, applyB]
      have he1idx : evalOpd env1 idx = evalOpd env idx := by
        rw [henv1]
        exact evalOpd_update s hidx (Nat.le_refl s)
      have hvs : env2 (s + 1) = evalOpd env off * dim + evalOpd env idx := by
        rw [henv2]
        show (if s + 1 = s + 1 then
            applyB BOp.addI (evalOpd env1 (Opd.vid s)) (evalOpd env1 idx)
          else env1 (s + 1)) = _
        rw [if_pos rfl, he1s, he1idx]
        rfl
      refine ⟨by simpa [genOffsetLoop] using (by omega : s ≤ (genOffsetLoop (Opd.vid (s+1)) tl (s+2)).2.2), ?_, ?_, ?_, ?_⟩
      · simpa [genOffsetLoop] using ihoff
      · intro b hb
        simp only [genOffsetLoop, List.mem_cons] at hb
        rcases hb with h | h | h
        · subst h
          simp only [genOffsetLoop]
          exact ⟨Nat.le_refl s, by omega⟩
        · subst h
          simp only [genOffsetLoop]
          exact ⟨by omega, by omega⟩
        · have := ihres b h
          simp only [genOffsetLoop]
          exact ⟨by omega, this.2⟩
      · intro n hn
        simp only [genOffsetLoop, runChain]
        have h1 : runChain env2 (genOffsetLoop (Opd.vid (s + 1)) tl (s + 2)).1 n = env2 n :=
          ihpres n (by omega)
        rw [show (update
              (update env s (applyB BOp.mulI (evalOpd env off) (evalOpd env (Opd.cst dim))))
              (s + 1)
              (applyB BOp.addI
                (evalOpd (update env s (applyB BOp.mulI (evalOpd env off) (evalOpd env (Opd.cst dim)))) (Opd.vid s))
                (evalOpd (update env s (applyB BOp.mulI (evalOpd env off) (evalOpd env (Opd.cst dim)))) idx))) = env2 from rfl]
        rw [h1, henv2, henv1]
        simp [update]
        omega
      · simp only [genOffsetLoop, runChain]
        rw [show (update
              (update env s (applyB BOp.mulI (evalOpd env off) (evalOpd env (Opd.cst dim))))
              (s + 1)
              (applyB BOp.addI
                (evalOpd (update env s (applyB BOp.mulI (evalOpd env off) (evalOpd env (Opd.cst dim)))) (Opd.vid s))
                (evalOpd (update env s (applyB BOp.mulI (evalOpd env off) (evalOpd env (Opd.cst dim)))) idx))) = env2 from rfl]
        rw [iheval]
        simp only [List.map_cons, List.foldl_cons]
        have hbase : evalOpd env2 (Opd.vid (s + 1)) = evalOpd env off * dim + evalOpd env idx := hvs
        rw [hbase]
        congr 1
        exact List.map_congr_left (fun p hmem => by
          have hplt : OpdLt p.1 s := hp p (List.mem_cons_of_mem _ hmem)
          have he : evalOpd env2 p.1 = evalOpd env p.1 := by
            rw [henv2, henv1]
            rw [evalOpd_update s hplt (by omega)]
            rw [evalOpd_update s hplt (Nat.le_refl s)]
          rw [he])

theorem genOffsetLoop_mono (pairs : List (Opd × Int)) :
    ∀ (off : Opd) (s : Nat), s ≤ (genOffsetLoop off pairs s).2.2 := by
  induction pairs with
  | nil => intro off s; exact Nat.le_refl s
  | cons hd tl ih =>
      intro off s
      obtain ⟨idx, dim⟩ := hd
      have := ih (Opd.vid (s + 1)) (s + 2)
      simp only [genOffsetLoop]
      omega

theorem genOffsetLoop_res (pairs : List (Opd × Int)) :
    ∀ (off : Opd) (s : Nat), ∀ b ∈ (genOffsetLoop off pairs s).1,
    s ≤ b.res ∧ b.res < (genOffsetLoop off pairs s).2.2 := by
  induction pairs with
  | nil => intro off s b hb; simp [genOffsetLoop] at hb
  | cons hd tl ih =>
      intro off s b hb
      obtain ⟨idx, dim⟩ := hd
      have hmono := genOffsetLoop_mono tl (Opd.vid (s + 1)) (s + 2)
      simp only [genOffsetLoop, List.mem_cons] at hb ⊢
      rcases hb with h | h | h
      · subst h
        refine ⟨Nat.le_refl s, ?_⟩
        show s < (genOffsetLoop (Opd.vid (s + 1)) tl (s + 2)).2.2
        omega
      · subst h
        refine ⟨?_, ?_⟩
        · show s ≤ s + 1
          omega
        · show s + 1 < (genOffsetLoop (Opd.vid (s + 1)) tl (s + 2)).2.2
          omega
      · have := ih (Opd.vid (s + 1)) (s + 2) b h
        exact ⟨by omega, this.2⟩

theorem runChain_append (l1 : List BInst) :
    ∀ (env : Nat → Int) (l2 : List BInst),
    runChain env (l1 ++ l2) = runChain (runChain env l1) l2 := by
  induction l1 with
  | nil => intro env l2; rfl
  | cons b rest ih =>
      intro env l2
      simp only [List.cons_append, runChain]
      exact ih _ l2

/-- C1: for an access a[i1]...[ik] to a local array with dimensions d1..dk,
ir_array_ref emits code computing the element offset by the chain
(((i1·d2)+i2)·d3+…)+ik (just i1 for k = 1), multiplies it by the element
size 4 (Int32), and finally appends Add(arrayVar, byteOffset) whose result
Value has type Pointer(elementType): the emitted code ends with exactly the
byte multiply and the pointer-typed Add, and running it yields the byte
offset (linear offset times 4) and the address base + byte offset. -/
theorem ir_array_ref_offset (base : Nat) (i0 : Opd) (irest : List Opd)
    (dims : List Int) (s : Nat) (env : Nat → Int)
    (hk : irest.length + 1 = dims.length) (hb : base < s) (h0 : OpdLt i0 s)
    (hr : ∀ o ∈ irest, OpdLt o s) :
    (∃ offOpd offCode,
      (ir_array_ref_local base i0 irest dims 4 s).1 = offCode ++
        [⟨BOp.mulI, offOpd, Opd.cst 4,
          (ir_array_ref_local base i0 irest dims 4 s).2.1, VTy.i32⟩,
         ⟨BOp.addI, Opd.vid base,
          Opd.vid (ir_array_ref_local base i0 irest dims 4 s).2.1,
          (ir_array_ref_local base i0 irest dims 4 s).2.2.1, VTy.ptr VTy.i32⟩]) ∧
    runChain env (ir_array_ref_local base i0 irest dims 4 s).1
        (ir_array_ref_local base i0 irest dims 4 s).2.1 =
      linearOffset env i0 irest dims * 4 ∧
    runChain env (ir_array_ref_local base i0 irest dims 4 s).1
        (ir_array_ref_local base i0 irest dims 4 s).2.2.1 =
      env base + linearOffset env i0 irest dims * 4 := by
  have hpairs : ∀ p ∈ irest.zip (dims.drop 1), OpdLt p.1 s := by
    intro p hp
    exact hr p.1 (List.of_mem_zip hp).1
  obtain ⟨hle, hoffb, hres, hpres, heval⟩ :=
    genOffsetLoop_spec (irest.zip (dims.drop 1)) i0 s env h0 hpairs
  have hchain : ∀ n : Nat,
      runChain env (ir_array_ref_local base i0 irest dims 4 s).1 n =
      runChain (runChain env (genOffsetLoop i0 (irest.zip (dims.drop 1)) s).1)
        [⟨BOp.mulI, (genOffsetLoop i0 (irest.zip (dims.drop 1)) s).2.1, Opd.cst 4,
          (genOffsetLoop i0 (irest.zip (dims.drop 1)) s).2.2, VTy.i32⟩,
         ⟨BOp.addI, Opd.vid base,
          Opd.vid (genOffsetLoop i0 (irest.zip (dims.drop 1)) s).2.2,
          (genOffsetLoop i0 (irest.zip (dims.drop 1)) s).2.2 + 1, VTy.ptr VTy.i32⟩] n := by
    intro n
    simp only [ir_array_ref_local]
    rw [runChain_append]
  set L := genOffsetLoop i0 (irest.zip (dims.drop 1)) s with hLdef
  set e1 := runChain env L.1 with he1
  have hbase1 : e1 base = env base := hpres base hb
  have hb2 : base < L.2.2 := Nat.lt_of_lt_of_le hb hle
  have hfin : ∀ n, runChain e1
      [⟨BOp.mulI, L.2.1, Opd.cst 4, L.2.2, VTy.i32⟩,
       ⟨BOp.addI, Opd.vid base, Opd.vid L.2.2, L.2.2 + 1, VTy.ptr VTy.i32⟩] n =
      update (update e1 L.2.2 (evalOpd e1 L.2.1 * 4)) (L.2.2 + 1)
        (update e1 L.2.2 (evalOpd e1 L.2.1 * 4) base +
          update e1 L.2.2 (evalOpd e1 L.2.1 * 4) L.2.2) n := by
    intro n
    simp only [runChain, evalOpd, applyB]
  have hlin : evalOpd e1 L.2.1 = linearOffset env i0 irest dims := heval
  have hid1 : (ir_array_ref_local base i0 irest dims 4 s).2.1 = L.2.2 := by
    simp only [ir_array_ref_local]
  have hid2 : (ir_array_ref_local base i0 irest dims 4 s).2.2.1 = L.2.2 + 1 := by
    simp only [ir_array_ref_local]
  have hne1 : L.2.2 ≠ L.2.2 + 1 := by omega
  have hne2 : base ≠ L.2.2 + 1 := by omega
  have hne3 : base ≠ L.2.2 := by omega
  refine ⟨⟨L.2.1, L.1, ?_⟩, ?_, ?_⟩
  · rw [hid1, hid2]
    simp only [ir_array_ref_local]
  · rw [hchain, hfin, hid1]
    simp [update, hne1, hlin]
  · rw [hchain, hfin, hid2]
    simp [update, hne1, hne2, hne3, hbase1, hlin]

/-- Witness: accessing a[i1][i2] of a local array int a[3][4], with the
array base holding address 100 and index values i1 = 1, i2 = 2: the byte
offset is (1*4+2)*4 = 24 and the address is 124. -/
theorem ir_array_ref_offset_witness :
    (∃ offOpd offCode,
      (ir_array_ref_local 0 (Opd.vid 1) [Opd.vid 2] [3, 4] 4 3).1 = offCode ++
        [⟨BOp.mulI, offOpd, Opd.cst 4,
          (ir_array_ref_local 0 (Opd.vid 1) [Opd.vid 2] [3, 4] 4 3).2.1, VTy.i32⟩,
         ⟨BOp.addI, Opd.vid 0,
          Opd.vid (ir_array_ref_local 0 (Opd.vid 1) [Opd.vid 2] [3, 4] 4 3).2.1,
          (ir_array_ref_local 0 (Opd.vid 1) [Opd.vid 2] [3, 4] 4 3).2.2.1,
          VTy.ptr VTy.i32⟩]) ∧
    runChain (fun n => if n = 0 then 100 else Int.ofNat n)
        (ir_array_ref_local 0 (Opd.vid 1) [Opd.vid 2] [3, 4] 4 3).1
        (ir_array_ref_local 0 (Opd.vid 1) [Opd.vid 2] [3, 4] 4 3).2.1 =
      linearOffset (fun n => if n = 0 then 100 else Int.ofNat n)
        (Opd.vid 1) [Opd.vid 2] [3, 4] * 4 ∧
    runChain (fun n => if n = 0 then 100 else Int.ofNat n)
        (ir_array_ref_local 0 (Opd.vid 1) [Opd.vid 2] [3, 4] 4 3).1
        (ir_array_ref_local 0 (Opd.vid 1) [Opd.vid 2] [3, 4] 4 3).2.2.1 =
      (fun n => if n = 0 then (100 : Int) else Int.ofNat n) 0 +
        linearOffset (fun n => if n = 0 then 100 else Int.ofNat n)
          (Opd.vid 1) [Opd.vid 2] [3, 4] * 4 :=
  ir_array_ref_offset 0 (Opd.vid 1) [Opd.vid 2] [3, 4] 3
    (fun n => if n = 0 then 100 else Int.ofNat n)
    (by decide) (by decide) (by decide) (by decide)

end ArrayRef

namespace AssignOrder

open ArrayRef

/-- An operand of an assignment statement: a plain variable leaf or an
array reference (both sides of x = e can be array references). -/
inductive AExpr where
  | evar (v : Nat)
  | earr (base : Nat) (i0 : Opd) (irest : List Opd) (dims : List Int)
deriving DecidableEq, Repr

/-- Instructions emitted while translating an assignment: the binary
instructions of address computations, and Move instructions (both the
load-through-pointer of an rvalue array read and the final assignment). -/
inductive AInst where
  | bin (b : BInst)
  | move (dst src : Nat)
deriving DecidableEq, Repr

/-- Visiting one operand of an assignment (ir_visit_ast_node on a son of the
Assign node): a variable leaf looks the Value up and emits nothing; an array
reference runs ir_array_ref, which emits the address computation and — in
rvalue position only — creates a MemVariable and a load Move
(the lvalue case stops at the address, as detected for the first son of an
Assign). Returns (instructions, result Value id, fresh counter). -/
def ir_visit_opnd (isLValue : Bool) : AExpr → Nat → List AInst × Nat × Nat
  | .evar v, s => ([], v, s)
  | .earr base i0 irest dims, s =>
      let r := ir_array_ref_local base i0 irest dims 4 s
      if isLValue then (r.1.map AInst.bin, r.2.2.1, r.2.2.2)
      else
        ((r.1.map AInst.bin) ++ [AInst.move r.2.2.2 r.2.2.1], r.2.2.2, r.2.2.2 + 1)

/-- IRGenerator::ir_assign: visit the left son first (in lvalue mode), then
the right son, then append the RIGHT operand's instructions, then the left
operand's, then the Move. -/
def ir_assign (lhs rhs : AExpr) (s : Nat) : List AInst × Nat :=
  let l := ir_visit_opnd true lhs s
  let r := ir_visit_opnd false rhs l.2.2
  (r.1 ++ l.1 ++ [AInst.move l.2.1 r.2.1], r.2.2)

/-- The result ids of binary instructions and the destinations of load
moves created while visiting an operand lie in the visit's counter
interval. -/
theorem bin_mem_of_mem_map {b : BInst} {l : List BInst}
    (h : AInst.bin b ∈ l.map AInst.bin) : b ∈ l := by
  rcases List.mem_map.mp h with ⟨x, hx, hinj⟩
  cases hinj
  exact hx

theorem ir_visit_opnd_fresh (isLValue : Bool) (e : AExpr) (s : Nat) :
    s ≤ (ir_visit_opnd isLValue e s).2.2 ∧
    (∀ b, AInst.bin b ∈ (ir_visit_opnd isLValue e s).1 →
      s ≤ b.res ∧ b.res < (ir_visit_opnd isLValue e s).2.2) := by
  cases e with
  | evar v =>
      exact ⟨Nat.le_refl s, by intro b hb; simp [ir_visit_opnd] at hb⟩
  | earr base i0 irest dims =>
      have hmono := genOffsetLoop_mono (irest.zip (dims.drop 1)) i0 s
      have hres := genOffsetLoop_res (irest.zip (dims.drop 1)) i0 s
      have hmem : ∀ b : BInst, b ∈ (ir_array_ref_local base i0 irest dims 4 s).1 →
          s ≤ b.res ∧ b.res ≤ (genOffsetLoop i0 (irest.zip (dims.drop 1)) s).2.2 + 1 := by
        intro b hb
        simp only [ir_array_ref_local] at hb
        rcases List.mem_append.mp hb with h | h
        · have := hres b h
          exact ⟨this.1, by omega⟩
        · rcases List.mem_cons.mp h with h1 | h1
          · subst h1
            refine ⟨?_, ?_⟩
            · show s ≤ (genOffsetLoop i0 (irest.zip (dims.drop 1)) s).2.2
              omega
            · show (genOffsetLoop i0 (irest.zip (dims.drop 1)) s).2.2 ≤
                (genOffsetLoop i0 (irest.zip (dims.drop 1)) s).2.2 + 1
              omega
          · rcases List.mem_cons.mp h1 with h2 | h2
            · subst h2
              refine ⟨?_, Nat.le_refl _⟩
              show s ≤ (genOffsetLoop i0 (irest.zip (dims.drop 1)) s).2.2 + 1
              omega
            · simp at h2
      cases isLValue with
      | true =>
          have hout : (ir_visit_opnd true (AExpr.earr base i0 irest dims) s).2.2 =
              (genOffsetLoop i0 (irest.zip (dims.drop 1)) s).2.2 + 2 := by
            simp [ir_visit_opnd, ir_array_ref_local]
          refine ⟨?_, ?_⟩
          · rw [hout]; omega
          · intro b hb
            have hb2 : b ∈ (ir_array_ref_local base i0 irest dims 4 s).1 := by
              have : (ir_visit_opnd true (AExpr.earr base i0 irest dims) s).1 =
                  (ir_array_ref_local base i0 irest dims 4 s).1.map AInst.bin := by
                simp [ir_visit_opnd]
              rw [this] at hb
              exact bin_mem_of_mem_map hb
            have := hmem b hb2
            rw [hout]
            exact ⟨this.1, by omega⟩
      | false =>
          have hout : (ir_visit_opnd false (AExpr.earr base i0 irest dims) s).2.2 =
              (genOffsetLoop i0 (irest.zip (dims.drop 1)) s).2.2 + 3 := by
            simp [ir_visit_opnd, ir_array_ref_local]
          refine ⟨?_, ?_⟩
          · rw [hout]; omega
          · intro b hb
            have hb2 : b ∈ (ir_array_ref_local base i0 irest dims 4 s).1 := by
              have heq : (ir_visit_opnd false (AExpr.earr base i0 irest dims) s).1 =
                  (ir_array_ref_local base i0 irest dims 4 s).1.map AInst.bin ++
                    [AInst.move (ir_array_ref_local base i0 irest dims 4 s).2.2.2
                      (ir_array_ref_local base i0 irest dims 4 s).2.2.1] := by
                simp [ir_visit_opnd]
              rw [heq] at hb
              rcases List.mem_append.mp hb with h | h
              · exact bin_mem_of_mem_map h
              · simp at h
            have := hmem b hb2
            rw [hout]
            exact ⟨this.1, by omega⟩

/-- C10: translating x = e visits the left subtree first (left Values are
created in the earlier counter interval, right Values in the later one),
but appends the right-hand side's instructions before the left-hand side's
address computation, with the Move last. -/
theorem ir_assign_rhs_first (lhs rhs : AExpr) (s : Nat) :
    ir_assign lhs rhs s =
      ((ir_visit_opnd false rhs (ir_visit_opnd true lhs s).2.2).1 ++
        (ir_visit_opnd true lhs s).1 ++
        [AInst.move (ir_visit_opnd true lhs s).2.1
          (ir_visit_opnd false rhs (ir_visit_opnd true lhs s).2.2).2.1],
       (ir_visit_opnd false rhs (ir_visit_opnd true lhs s).2.2).2.2) ∧
    s ≤ (ir_visit_opnd true lhs s).2.2 ∧
    (ir_visit_opnd true lhs s).2.2 ≤
      (ir_visit_opnd false rhs (ir_visit_opnd true lhs s).2.2).2.2 ∧
    (∀ b, AInst.bin b ∈ (ir_visit_opnd true lhs s).1 →
      s ≤ b.res ∧ b.res < (ir_visit_opnd true lhs s).2.2) ∧
    (∀ b, AInst.bin b ∈ (ir_visit_opnd false rhs (ir_visit_opnd true lhs s).2.2).1 →
      (ir_visit_opnd true lhs s).2.2 ≤ b.res ∧
        b.res < (ir_visit_opnd false rhs (ir_visit_opnd true lhs s).2.2).2.2) := by
  refine ⟨rfl, (ir_visit_opnd_fresh true lhs s).1,
    (ir_visit_opnd_fresh false rhs _).1,
    (ir_visit_opnd_fresh true lhs s).2,
    (ir_visit_opnd_fresh false rhs _).2⟩

end AssignOrder

namespace IRGen

/-- Instructions of the linear IR as emitted by the generator, at the
granularity control flow needs: entry and exit markers, labels (identified
by creation order — LabelInstruction objects), unconditional gotos,
conditional branches (carrying the id of the condition value they test),
moves, and work instructions standing for the straight-line evaluation code
of an expression or comparison (tagged with the id of the AST node whose
instructions they are). -/
inductive GInst where
  | entry
  | exitI (ret : Option Nat)
  | label (l : Nat)
  | goto (l : Nat)
  | branch (n : Nat) (t f : Nat)
  | move (dst src : Nat)
  | work (n : Nat)
deriving DecidableEq, Repr

/-- Condition expressions as generate_branch_for_condition scrutinizes them:
comparisons and other value-producing expressions are atoms (the source
evaluates them and branches on the produced Int1), and the three logical
connectives are handled structurally. -/
inductive Cond where
  | atom (n : Nat)
  | lnot (c : Cond)
  | land (a b : Cond)
  | lor (a b : Cond)
deriving DecidableEq, Repr

/-- IRGenerator::generate_branch_for_condition with inherited true/false
targets: an atom emits its evaluation code and a branch on its value; NOT
recurses with the labels swapped; AND creates the mid label (check_expr2),
emits a with (mid, false), appends mid, then emits b with (true, false);
OR creates mid, emits a with (true, mid), appends mid, then emits b with
(true, false). The Nat argument is the fresh label-id counter. -/
def generate_branch_for_condition : Cond → Nat → Nat → Nat → List GInst × Nat
  | .atom n, t, f, s => ([GInst.work n, GInst.branch n t f], s)
  | .lnot c, t, f, s => generate_branch_for_condition c f t s
  | .land a b, t, f, s =>
      let ra := generate_branch_for_condition a s f (s + 1)
      let rb := generate_branch_for_condition b t f ra.2
      (ra.1 ++ GInst.label s :: rb.1, rb.2)
  | .lor a b, t, f, s =>
      let ra := generate_branch_for_condition a t s (s + 1)
      let rb := generate_branch_for_condition b t f ra.2
      (ra.1 ++ GInst.label s :: rb.1, rb.2)

/-- Truth value of a condition under an environment assigning each atom its
runtime truth. -/
def eval (env : Nat → Bool) : Cond → Bool
  | .atom n => env n
  | .lnot c => !(eval env c)
  | .land a b => eval env a && eval env b
  | .lor a b => eval env a || eval env b

/-- The atoms of a condition. -/
def atoms : Cond → List Nat
  | .atom n => [n]
  | .lnot c => atoms c
  | .land a b => atoms a ++ atoms b
  | .lor a b => atoms a ++ atoms b

/-- The atoms whose code a short-circuit evaluation executes. -/
def scTrace (env : Nat → Bool) : Cond → List Nat
  | .atom n => [n]
  | .lnot c => scTrace env c
  | .land a b => if eval env a then scTrace env a ++ scTrace env b else scTrace env a
  | .lor a b => if eval env a then scTrace env a else scTrace env a ++ scTrace env b

def isLabel (l : Nat) : GInst → Bool
  | .label l2 => l == l2
  | _ => false

/-- Whether the code defines label l. -/
def hasLabel (l : Nat) (code : List GInst) : Bool :=
  code.any (isLabel l)

/-- Position the execution after a forward jump: drop up to the definition
of label l. -/
def skipTo (l : Nat) (code : List GInst) : List GInst :=
  code.dropWhile (fun i => !(isLabel l i))

theorem skipTo_length_le (l : Nat) (code : List GInst) :
    (skipTo l code).length ≤ code.length :=
  (List.dropWhile_sublist _).length_le

/-- Executing emitted code from its start: work instructions record their
atom id; labels fall through; a branch (or goto) jumps forward to its
target label if it is defined in the remainder, and otherwise leaves the
code with that label as outcome. All jumps the condition generator emits
are forward, so this structural recursion is the semantics of its output.
Returns (executed atom ids, outcome label). -/
def exec (env : Nat → Bool) : List GInst → List Nat × Option Nat
  | [] => ([], none)
  | GInst.entry :: r => exec env r
  | GInst.exitI _ :: r => exec env r
  | GInst.label _ :: r => exec env r
  | GInst.move _ _ :: r => exec env r
  | GInst.work n :: r =>
      ((n :: (exec env r).1), (exec env r).2)
  | GInst.goto l :: r =>
      if hasLabel l r then exec env (skipTo l r) else ([], some l)
  | GInst.branch n t f :: r =>
      if hasLabel (if env n then t else f) r then
        exec env (skipTo (if env n then t else f) r)
      else ([], some (if env n then t else f))
termination_by code => code.length
decreasing_by
  all_goals simp_wf
  · have := skipTo_length_le l r
    omega
  · have := skipTo_length_le (if env n then t else f) r
    omega

/-- Execution continued at a jump target relative to the code that follows. -/
def jumpExec (env : Nat → Bool) (l : Nat) (rest : List GInst) : List Nat × Option Nat :=
  if hasLabel l rest then exec env (skipTo l rest) else ([], some l)

theorem hasLabel_append (l : Nat) (a b : List GInst) :
    hasLabel l (a ++ b) = (hasLabel l a || hasLabel l b) := by
  simp [hasLabel]

theorem jumpExec_append (env : Nat → Bool) (l : Nat) (pre rest : List GInst)
    (h : hasLabel l pre = false) :
    jumpExec env l (pre ++ rest) = jumpExec env l rest := by
  have hall : ∀ i ∈ pre, (fun i => !(isLabel l i)) i = true := by
    intro i hi
    have : isLabel l i = false := by
      by_contra hc
      have : isLabel l i = true := by
        cases hy : isLabel l i
        · exact absurd hy hc
        · rfl
      have : hasLabel l pre = true := List.any_eq_true.mpr ⟨i, hi, this⟩
      rw [h] at this
      exact Bool.false_ne_true this
    simp [this]
  have hskip : skipTo l (pre ++ rest) = skipTo l rest :=
    List.dropWhile_append_of_pos hall
  unfold jumpExec
  rw [hasLabel_append, h, Bool.false_or, hskip]

theorem gbc_mono (c : Cond) : ∀ t f s,
    s ≤ (generate_branch_for_condition c t f s).2 := by
  induction c with
  | atom n => intro t f s; exact Nat.le_refl s
  | lnot c ih => intro t f s; exact ih f t s
  | land a b iha ihb =>
      intro t f s
      have h1 := iha s f (s + 1)
      have h2 := ihb t f (generate_branch_for_condition a s f (s + 1)).2
      simp only [generate_branch_for_condition]
      omega
  | lor a b iha ihb =>
      intro t f s
      have h1 := iha t s (s + 1)
      have h2 := ihb t f (generate_branch_for_condition a t s (s + 1)).2
      simp only [generate_branch_for_condition]
      omega

theorem gbc_labels (c : Cond) : ∀ t f s l,
    GInst.label l ∈ (generate_branch_for_condition c t f s).1 →
    s ≤ l ∧ l < (generate_branch_for_condition c t f s).2 := by
  induction c with
  | atom n =>
      intro t f s l hl
      simp [generate_branch_for_condition] at hl
  | lnot c ih =>
      intro t f s l hl
      exact ih f t s l hl
  | land a b iha ihb =>
      intro t f s l hl
      have hm1 := gbc_mono a s f (s + 1)
      have hm2 := gbc_mono b t f (generate_branch_for_condition a s f (s + 1)).2
      simp only [generate_branch_for_condition, List.mem_append, List.mem_cons] at hl ⊢
      rcases hl with h | h | h
      · have := iha s f (s + 1) l h
        omega
      · cases h
        omega
      · have := ihb t f (generate_branch_for_condition a s f (s + 1)).2 l h
        omega
  | lor a b iha ihb =>
      intro t f s l hl
      have hm1 := gbc_mono a t s (s + 1)
      have hm2 := gbc_mono b t f (generate_branch_for_condition a t s (s + 1)).2
      simp only [generate_branch_for_condition, List.mem_append, List.mem_cons] at hl ⊢
      rcases hl with h | h | h
      · have := iha t s (s + 1) l h
        omega
      · cases h
        omega
      · have := ihb t f (generate_branch_for_condition a t s (s + 1)).2 l h
        omega

theorem hasLabel_gbc_false (c : Cond) (t f s l : Nat) (hl : l < s) :
    hasLabel l (generate_branch_for_condition c t f s).1 = false := by
  cases hy : hasLabel l (generate_branch_for_condition c t f s).1
  · rfl
  · exfalso
    rcases List.any_eq_true.mp hy with ⟨i, hi, hil⟩
    have : i = GInst.label l := by
      cases i <;> simp [isLabel] at hil
      subst hil
      rfl
    subst this
    have := gbc_labels c t f s l hi
    omega

theorem jumpExec_cons_self (env : Nat → Bool) (s : Nat) (x : List GInst) :
    jumpExec env s (GInst.label s :: x) = exec env x := by
  have h1 : hasLabel s (GInst.label s :: x) = true := by
    apply List.any_eq_true.mpr
    exact ⟨GInst.label s, List.mem_cons_self _ _, by simp [isLabel]⟩
  have h2 : skipTo s (GInst.label s :: x) = GInst.label s :: x := by
    unfold skipTo
    rw [List.dropWhile_cons_of_neg]
    simp [isLabel]
  unfold jumpExec
  rw [h1, if_pos rfl, h2]
  simp [exec]

theorem exec_gbc (c : Cond) : ∀ (t f s : Nat) (rest : List GInst) (env : Nat → Bool),
    t < s → f < s →
    exec env ((generate_branch_for_condition c t f s).1 ++ rest) =
      (scTrace env c ++ (jumpExec env (if eval env c then t else f) rest).1,
       (jumpExec env (if eval env c then t else f) rest).2) := by
  induction c with
  | atom n =>
      intro t f s rest env ht hf
      simp only [generate_branch_for_condition, List.cons_append, List.nil_append]
      simp only [exec, scTrace, eval, jumpExec]
      simp
  | lnot c ih =>
      intro t f s rest env ht hf
      simp only [generate_branch_for_condition]
      rw [ih f t s rest env hf ht]
      simp only [scTrace, eval]
      rcases Bool.eq_false_or_eq_true (eval env c) with h | h <;> simp [h]
  | land a b iha ihb =>
      intro t f s rest env ht hf
      have hm1 := gbc_mono a s f (s + 1)
      have hcode : (generate_branch_for_condition (Cond.land a b) t f s).1 =
          (generate_branch_for_condition a s f (s + 1)).1 ++
            GInst.label s ::
              (generate_branch_for_condition b t f
                (generate_branch_for_condition a s f (s + 1)).2).1 := by
        simp only [generate_branch_for_condition]
      rw [hcode, List.append_assoc, List.cons_append]
      rw [iha s f (s + 1)
        (GInst.label s ::
          ((generate_branch_for_condition b t f
            (generate_branch_for_condition a s f (s + 1)).2).1 ++ rest)) env
        (by omega) (by omega)]
      cases ha : eval env a with
      | true =>
          rw [if_pos rfl]
          rw [jumpExec_cons_self]
          rw [ihb t f (generate_branch_for_condition a s f (s + 1)).2 rest env
            (by omega) (by omega)]
          simp [scTrace, eval, ha, List.append_assoc]
      | false =>
          rw [if_neg (by simp)]
          have hpre : hasLabel f
              (GInst.label s ::
                (generate_branch_for_condition b t f
                  (generate_branch_for_condition a s f (s + 1)).2).1) = false := by
            have hb := hasLabel_gbc_false b t f
              (generate_branch_for_condition a s f (s + 1)).2 f (by omega)
            simp only [hasLabel, List.any_cons]
            rw [show isLabel f (GInst.label s) = false by
                  simp [isLabel]; omega]
            simpa [hasLabel] using hb
          have hj := jumpExec_append env f
            (GInst.label s ::
              (generate_branch_for_condition b t f
                (generate_branch_for_condition a s f (s + 1)).2).1) rest hpre
          rw [show (GInst.label s ::
                ((generate_branch_for_condition b t f
                  (generate_branch_for_condition a s f (s + 1)).2).1 ++ rest)) =
              (GInst.label s ::
                (generate_branch_for_condition b t f
                  (generate_branch_for_condition a s f (s + 1)).2).1) ++ rest from by
            simp]
          rw [hj]
          simp [scTrace, eval, ha]
  | lor a b iha ihb =>
      intro t f s rest env ht hf
      have hm1 := gbc_mono a t s (s + 1)
      have hcode : (generate_branch_for_condition (Cond.lor a b) t f s).1 =
          (generate_branch_for_condition a t s (s + 1)).1 ++
            GInst.label s ::
              (generate_branch_for_condition b t f
                (generate_branch_for_condition a t s (s + 1)).2).1 := by
        simp only [generate_branch_for_condition]
      rw [hcode, List.append_assoc, List.cons_append]
      rw [iha t s (s + 1)
        (GInst.label s ::
          ((generate_branch_for_condition b t f
            (generate_branch_for_condition a t s (s + 1)).2).1 ++ rest)) env
        (by omega) (by omega)]
      cases ha : eval env a with
      | false =>
          rw [if_neg (by simp)]
          rw [jumpExec_cons_self]
          rw [ihb t f (generate_branch_for_condition a t s (s + 1)).2 rest env
            (by omega) (by omega)]
          simp [scTrace, eval, ha, List.append_assoc]
      | true =>
          rw [if_pos rfl]
          have hpre : hasLabel t
              (GInst.label s ::
                (generate_branch_for_condition b t f
                  (generate_branch_for_condition a t s (s + 1)).2).1) = false := by
            have hb := hasLabel_gbc_false b t f
              (generate_branch_for_condition a t s (s + 1)).2 t (by omega)
            simp only [hasLabel, List.any_cons]
            rw [show isLabel t (GInst.label s) = false by
                  simp [isLabel]; omega]
            simpa [hasLabel] using hb
          have hj := jumpExec_append env t
            (GInst.label s ::
              (generate_branch_for_condition b t f
                (generate_branch_for_condition a t s (s + 1)).2).1) rest hpre
          rw [show (GInst.label s ::
                ((generate_branch_for_condition b t f
                  (generate_branch_for_condition a t s (s + 1)).2).1 ++ rest)) =
              (GInst.label s ::
                (generate_branch_for_condition b t f
                  (generate_branch_for_condition a t s (s + 1)).2).1) ++ rest from by
            simp]
          rw [hj]
          simp [scTrace, eval, ha]

theorem exec_gbc_closed (env : Nat → Bool) (c : Cond) (t f s : Nat)
    (ht : t < s) (hf : f < s) :
    exec env (generate_branch_for_condition c t f s).1 =
      (scTrace env c, some (if eval env c then t else f)) := by
  have h := exec_gbc c t f s [] env ht hf
  rw [List.append_nil] at h
  rw [h]
  simp [jumpExec, hasLabel]

theorem scTrace_subset_atoms (env : Nat → Bool) (c : Cond) :
    ∀ n ∈ scTrace env c, n ∈ atoms c := by
  induction c with
  | atom n => simp [scTrace, atoms]
  | lnot c ih => simpa [scTrace, atoms] using ih
  | land a b iha ihb =>
      intro n hn
      simp only [atoms, List.mem_append]
      rcases Bool.eq_false_or_eq_true (eval env a) with h | h
      · simp [scTrace, h] at hn
        rcases hn with h2 | h2
        · exact Or.inl (iha n h2)
        · exact Or.inr (ihb n h2)
      · simp [scTrace, h] at hn
        exact Or.inl (iha n hn)
  | lor a b iha ihb =>
      intro n hn
      simp only [atoms, List.mem_append]
      rcases Bool.eq_false_or_eq_true (eval env a) with h | h
      · simp [scTrace, h] at hn
        exact Or.inl (iha n hn)
      · simp [scTrace, h] at hn
        rcases hn with h2 | h2
        · exact Or.inl (iha n h2)
        · exact Or.inr (ihb n h2)

/-- C2: the branch emitter's label threading — for a && b it creates a fresh
mid label, emits a with targets (mid, falseLabel), appends mid, then emits b
with (trueLabel, falseLabel); for a || b it emits a with (trueLabel, mid),
appends mid, then emits b with (trueLabel, falseLabel); for !e it recurses
with the labels swapped. Consequently executing the emitted code reaches the
true target exactly when the condition evaluates true, executing exactly the
short-circuit trace of atoms; in particular when a decides an a && b (a
false) or an a || b (a true), only instructions of a are ever reached. -/
theorem gbc_short_circuit :
    (∀ (a b : Cond) (t f s : Nat),
      generate_branch_for_condition (Cond.land a b) t f s =
        ((generate_branch_for_condition a s f (s + 1)).1 ++
          GInst.label s ::
            (generate_branch_for_condition b t f
              (generate_branch_for_condition a s f (s + 1)).2).1,
         (generate_branch_for_condition b t f
           (generate_branch_for_condition a s f (s + 1)).2).2)) ∧
    (∀ (a b : Cond) (t f s : Nat),
      generate_branch_for_condition (Cond.lor a b) t f s =
        ((generate_branch_for_condition a t s (s + 1)).1 ++
          GInst.label s ::
            (generate_branch_for_condition b t f
              (generate_branch_for_condition a t s (s + 1)).2).1,
         (generate_branch_for_condition b t f
           (generate_branch_for_condition a t s (s + 1)).2).2)) ∧
    (∀ (c : Cond) (t f s : Nat),
      generate_branch_for_condition (Cond.lnot c) t f s =
        generate_branch_for_condition c f t s) ∧
    (∀ (env : Nat → Bool) (c : Cond) (t f s : Nat), t < s → f < s →
      exec env (generate_branch_for_condition c t f s).1 =
        (scTrace env c, some (if eval env c then t else f))) ∧
    (∀ (env : Nat → Bool) (a b : Cond) (t f s : Nat), t < s → f < s →
      eval env a = false →
      ∀ n ∈ (exec env (generate_branch_for_condition (Cond.land a b) t f s).1).1,
        n ∈ atoms a) ∧
    (∀ (env : Nat → Bool) (a b : Cond) (t f s : Nat), t < s → f < s →
      eval env a = true →
      ∀ n ∈ (exec env (generate_branch_for_condition (Cond.lor a b) t f s).1).1,
        n ∈ atoms a) := by
  refine ⟨fun a b t f s => rfl, fun a b t f s => rfl, fun c t f s => rfl, exec_gbc_closed, ?_, ?_⟩
  · intro env a b t f s ht hf ha n hn
    rw [exec_gbc_closed env (Cond.land a b) t f s ht hf] at hn
    simp only [scTrace, ha, Bool.false_eq_true, if_false] at hn
    exact scTrace_subset_atoms env a n hn
  · intro env a b t f s ht hf ha n hn
    rw [exec_gbc_closed env (Cond.lor a b) t f s ht hf] at hn
    simp only [scTrace, ha, if_true] at hn
    exact scTrace_subset_atoms env a n hn

/-- Witness: a && b with a the atom 1 over the environment making only atom 0
true — a is false, execution reaches the false target 1, runs only atom 1's
code, and never reaches an instruction of b. -/
theorem gbc_short_circuit_witness :
    (exec (fun n => n == 0)
        (generate_branch_for_condition
          (Cond.land (Cond.atom 1) (Cond.atom 0)) 0 1 2).1 =
      (scTrace (fun n => n == 0) (Cond.land (Cond.atom 1) (Cond.atom 0)),
       some (if eval (fun n => n == 0) (Cond.land (Cond.atom 1) (Cond.atom 0))
          then 0 else 1))) ∧
    (∀ n ∈ (exec (fun n => n == 0)
        (generate_branch_for_condition
          (Cond.land (Cond.atom 1) (Cond.atom 0)) 0 1 2).1).1,
      n ∈ atoms (Cond.atom 1)) :=
  ⟨gbc_short_circuit.2.2.2.1 (fun n => n == 0)
      (Cond.land (Cond.atom 1) (Cond.atom 0)) 0 1 2 (by decide) (by decide),
   gbc_short_circuit.2.2.2.2.1 (fun n => n == 0)
      (Cond.atom 1) (Cond.atom 0) 0 1 2 (by decide) (by decide) (by decide)⟩

/-- Expressions as far as statement lowering needs them: straight-line
expressions (literals, variables, arithmetic, comparisons, calls) emit only
value-computing code; negation of an Int1 operand (ir_neg's i1 branch) emits
branches and gotos to freshly created labels. -/
inductive Expr where
  | atomE (n : Nat)
  | negI1 (e : Expr)
deriving DecidableEq, Repr

/-- Emission of an expression: (code, result value id, fresh counter).
The i1-negation case follows ir_neg: allocate a temp storage, labels
set_one, set_zero and continue; branch on the operand value; move ConstInt 1
(id 1) or ConstInt 0 (id 0) into the temp, both jumping to the continue
label; then the 0 - x Sub instruction. -/
def emitExpr : Expr → Nat → List GInst × Nat × Nat
  | .atomE n, s => ([GInst.work n], n, s)
  | .negI1 e, s =>
      let r := emitExpr e s
      let tmp := r.2.2
      let setOne := r.2.2 + 1
      let setZero := r.2.2 + 2
      let contL := r.2.2 + 3
      let subId := r.2.2 + 4
      (r.1 ++
        [GInst.branch r.2.1 setOne setZero,
         GInst.label setOne, GInst.move tmp 1, GInst.goto contL,
         GInst.label setZero, GInst.move tmp 0, GInst.goto contL,
         GInst.label contL, GInst.work subId],
       subId, r.2.2 + 5)

mutual
/-- Statements as the translator lowers them: straight-line statements
(declarations, assignments, expression statements), return with optional
expression, if with optional else, while, break, continue. -/
inductive Stmt where
  | simple (n : Nat)
  | ret (e : Option Expr)
  | sif (c : Cond) (th : StmtList) (el : Option StmtList)
  | swhile (c : Cond) (body : StmtList)
  | sbreak
  | scont
deriving Repr

/-- A block's statement sequence. -/
inductive StmtList where
  | nil
  | cons (s : Stmt) (rest : StmtList)
deriving Repr
end

mutual
/-- Statement lowering, translated from ir_return, ir_if_statement,
ir_while_statement, ir_break_statement and ir_continue_statement. Arguments:
the statement, the loop label stack of (continue target, break target)
pairs, the exit label, the return slot, and the fresh id counter. Returns
none on semantic error (break or continue outside a loop). -/
def ir_statement (stmt : Stmt) (st : List (Nat × Nat)) (exitL retSlot s : Nat) :
    Option (List GInst × Nat) :=
  match stmt with
  | .simple n => some ([GInst.work n], s)
  | .ret none => some ([GInst.goto exitL], s)
  | .ret (some e) =>
      let r := emitExpr e s
      some (r.1 ++ [GInst.move retSlot r.2.1, GInst.goto exitL], r.2.2)
  | .sbreak =>
      match st with
      | [] => none
      | top :: _ => some ([GInst.goto top.2], s)
  | .scont =>
      match st with
      | [] => none
      | top :: _ => some ([GInst.goto top.1], s)
  | .sif c th none =>
      let trueL := s
      let endifL := s + 1
      let rc := generate_branch_for_condition c trueL endifL (s + 2)
      match ir_stmt_list th st exitL retSlot rc.2 with
      | none => none
      | some (tc, s4) =>
          some (((rc.1 ++ [GInst.label trueL]) ++ tc) ++
            [GInst.goto endifL, GInst.label endifL], s4)
  | .sif c th (some es) =>
      let trueL := s
      let endifL := s + 1
      let falseL := s + 2
      let rc := generate_branch_for_condition c trueL falseL (s + 3)
      match ir_stmt_list th st exitL retSlot rc.2 with
      | none => none
      | some (tc, s4) =>
          match ir_stmt_list es st exitL retSlot s4 with
          | none => none
          | some (ec, s5) =>
              some (((((rc.1 ++ [GInst.label trueL]) ++ tc) ++
                [GInst.goto endifL, GInst.label falseL]) ++ ec) ++
                [GInst.label endifL], s5)
  | .swhile c body =>
      let condL := s
      let bodyL := s + 1
      let exitWL := s + 2
      let rc := generate_branch_for_condition c bodyL exitWL (s + 3)
      match ir_stmt_list body ((condL, exitWL) :: st) exitL retSlot rc.2 with
      | none => none
      | some (bc, s4) =>
          some (((([GInst.label condL] ++ rc.1) ++ [GInst.label bodyL]) ++ bc) ++
            [GInst.goto condL, GInst.label exitWL], s4)

/-- Lowering of a statement sequence (ir_block's loop). -/
def ir_stmt_list (l : StmtList) (st : List (Nat × Nat)) (exitL retSlot s : Nat) :
    Option (List GInst × Nat) :=
  match l with
  | .nil => some ([], s)
  | .cons x xs =>
      match ir_statement x st exitL retSlot s with
      | none => none
      | some (c1, s1) =>
          match ir_stmt_list xs st exitL retSlot s1 with
          | none => none
          | some (c2, s2) => some (c1 ++ c2, s2)
end

mutual
/-- Number of return statements in a statement. -/
def numReturns : Stmt → Nat
  | .simple _ => 0
  | .ret _ => 1
  | .sif _ th el =>
      numReturnsList th + (match el with | none => 0 | some es => numReturnsList es)
  | .swhile _ body => numReturnsList body
  | .sbreak => 0
  | .scont => 0

/-- Number of return statements in a sequence. -/
def numReturnsList : StmtList → Nat
  | .nil => 0
  | .cons x xs => numReturns x + numReturnsList xs
end

/-- IRGenerator::ir_function_define: Entry first; the exit label is created
(id 2 + p, after the p FormalParam Values and the two reserved constant
ids); each formal parameter is materialized into a fresh local by a Move;
the return slot is created for non-void functions and zero-initialized for
main; the body is translated with an empty loop stack; finally the exit
label and Exit(returnSlot) are appended. -/
def ir_function_define (p : Nat) (isMain hasRet : Bool) (body : StmtList) :
    Option (List GInst × Nat) :=
  let s0 := 2
  let exitL := s0 + p
  let paramMoves := (List.range p).map (fun i => GInst.move (exitL + 1 + i) (s0 + i))
  let sAfterParams := exitL + 1 + p
  let retSlot := sAfterParams
  let sAfterRet := if hasRet then sAfterParams + 1 else sAfterParams
  let mainInit := if isMain && hasRet then [GInst.move retSlot 0] else []
  match ir_stmt_list body [] exitL retSlot sAfterRet with
  | none => none
  | some (bc, sEnd) =>
      some (GInst.entry :: (paramMoves ++ (mainInit ++ (bc ++
        [GInst.label exitL,
         GInst.exitI (if hasRet then some retSlot else none)]))), sEnd)

def countGotoTo (l : Nat) (code : List GInst) : Nat :=
  code.countP (fun i => decide (i = GInst.goto l))

theorem countGotoTo_append (l : Nat) (a b : List GInst) :
    countGotoTo l (a ++ b) = countGotoTo l a + countGotoTo l b :=
  List.countP_append _ _ _

theorem countGotoTo_eq_zero (l : Nat) (code : List GInst)
    (h : ∀ i ∈ code, i ≠ GInst.goto l) : countGotoTo l code = 0 := by
  apply List.countP_eq_zero.mpr
  intro i hi
  simp [h i hi]

theorem gbc_no_goto (c : Cond) : ∀ t f s l,
    GInst.goto l ∉ (generate_branch_for_condition c t f s).1 := by
  induction c with
  | atom n => intro t f s l h; simp [generate_branch_for_condition] at h
  | lnot c ih => intro t f s l h; exact ih f t s l h
  | land a b iha ihb =>
      intro t f s l h
      simp only [generate_branch_for_condition, List.mem_append, List.mem_cons] at h
      rcases h with h | h | h
      · exact iha s f (s + 1) l h
      · cases h
      · exact ihb t f (generate_branch_for_condition a s f (s + 1)).2 l h
  | lor a b iha ihb =>
      intro t f s l h
      simp only [generate_branch_for_condition, List.mem_append, List.mem_cons] at h
      rcases h with h | h | h
      · exact iha t s (s + 1) l h
      · cases h
      · exact ihb t f (generate_branch_for_condition a t s (s + 1)).2 l h

theorem gbc_countGotoTo (c : Cond) (t f s l : Nat) :
    countGotoTo l (generate_branch_for_condition c t f s).1 = 0 := by
  apply countGotoTo_eq_zero
  intro i hi hne
  subst hne
  exact gbc_no_goto c t f s l hi

theorem gbc_branch_targets (c : Cond) : ∀ t f s n a b,
    GInst.branch n a b ∈ (generate_branch_for_condition c t f s).1 →
    (a = t ∨ a = f ∨ (s ≤ a ∧ a < (generate_branch_for_condition c t f s).2)) ∧
    (b = t ∨ b = f ∨ (s ≤ b ∧ b < (generate_branch_for_condition c t f s).2)) := by
  induction c with
  | atom m =>
      intro t f s n a b h
      simp only [generate_branch_for_condition, List.mem_cons, List.mem_singleton] at h
      rcases h with h | h
      · cases h
      · rcases h with h | h
        · cases h
          exact ⟨Or.inl rfl, Or.inr (Or.inl rfl)⟩
        · simp at h
  | lnot c ih =>
      intro t f s n a b h
      have := ih f t s n a b h
      simp only [generate_branch_for_condition]
      tauto
  | land a2 b2 iha ihb =>
      intro t f s n a b h
      have hm1 := gbc_mono a2 s f (s + 1)
      have hm2 := gbc_mono b2 t f (generate_branch_for_condition a2 s f (s + 1)).2
      simp only [generate_branch_for_condition, List.mem_append, List.mem_cons] at h ⊢
      rcases h with h | h | h
      · have := iha s f (s + 1) n a b h
        constructor
        · rcases this.1 with h1 | h1 | h1
          · exact Or.inr (Or.inr (by omega))
          · exact Or.inr (Or.inl h1)
          · exact Or.inr (Or.inr (by omega))
        · rcases this.2 with h1 | h1 | h1
          · exact Or.inr (Or.inr (by omega))
          · exact Or.inr (Or.inl h1)
          · exact Or.inr (Or.inr (by omega))
      · cases h
      · have := ihb t f (generate_branch_for_condition a2 s f (s + 1)).2 n a b h
        constructor
        · rcases this.1 with h1 | h1 | h1
          · exact Or.inl h1
          · exact Or.inr (Or.inl h1)
          · exact Or.inr (Or.inr (by omega))
        · rcases this.2 with h1 | h1 | h1
          · exact Or.inl h1
          · exact Or.inr (Or.inl h1)
          · exact Or.inr (Or.inr (by omega))
  | lor a2 b2 iha ihb =>
      intro t f s n a b h
      have hm1 := gbc_mono a2 t s (s + 1)
      have hm2 := gbc_mono b2 t f (generate_branch_for_condition a2 t s (s + 1)).2
      simp only [generate_branch_for_condition, List.mem_append, List.mem_cons] at h ⊢
      rcases h with h | h | h
      · have := iha t s (s + 1) n a b h
        constructor
        · rcases this.1 with h1 | h1 | h1
          · exact Or.inl h1
          · exact Or.inr (Or.inr (by omega))
          · exact Or.inr (Or.inr (by omega))
        · rcases this.2 with h1 | h1 | h1
          · exact Or.inl h1
          · exact Or.inr (Or.inr (by omega))
          · exact Or.inr (Or.inr (by omega))
      · cases h
      · have := ihb t f (generate_branch_for_condition a2 t s (s + 1)).2 n a b h
        constructor
        · rcases this.1 with h1 | h1 | h1
          · exact Or.inl h1
          · exact Or.inr (Or.inl h1)
          · exact Or.inr (Or.inr (by omega))
        · rcases this.2 with h1 | h1 | h1
          · exact Or.inl h1
          · exact Or.inr (Or.inl h1)
          · exact Or.inr (Or.inr (by omega))

theorem emitExpr_mono (e : Expr) : ∀ s, s ≤ (emitExpr e s).2.2 := by
  induction e with
  | atomE n => intro s; exact Nat.le_refl s
  | negI1 e ih =>
      intro s
      have := ih s
      simp only [emitExpr]
      omega

theorem emitExpr_jumps (e : Expr) : ∀ s,
    (∀ n a b, GInst.branch n a b ∈ (emitExpr e s).1 →
      (s ≤ a ∧ a < (emitExpr e s).2.2) ∧ (s ≤ b ∧ b < (emitExpr e s).2.2)) ∧
    (∀ l, GInst.goto l ∈ (emitExpr e s).1 → s ≤ l ∧ l < (emitExpr e s).2.2) := by
  induction e with
  | atomE n =>
      intro s
      constructor
      · intro n2 a b h; simp [emitExpr] at h
      · intro l h; simp [emitExpr] at h
  | negI1 e ih =>
      intro s
      have hm := emitExpr_mono e s
      constructor
      · intro n a b h
        simp only [emitExpr, List.mem_append] at h
        rcases h with h | h
        · have := ((ih s).1) n a b h
          simp only [emitExpr]
          omega
        · simp at h
          obtain ⟨hn, ha, hb⟩ := h
          subst ha
          subst hb
          simp only [emitExpr]
          omega
      · intro l h
        simp only [emitExpr, List.mem_append] at h
        rcases h with h | h
        · have := ((ih s).2) l h
          simp only [emitExpr]
          omega
        · simp at h
          subst h
          simp only [emitExpr]
          omega

mutual
theorem ir_statement_spec (stmt : Stmt) (st : List (Nat × Nat))
    (exitL retSlot s : Nat) (code : List GInst) (sf : Nat)
    (hex : exitL < s) (hst : ∀ pr ∈ st, exitL < pr.1 ∧ exitL < pr.2)
    (h : ir_statement stmt st exitL retSlot s = some (code, sf)) :
    s ≤ sf ∧ countGotoTo exitL code = numReturns stmt ∧
    (∀ n a b, GInst.branch n a b ∈ code → a ≠ exitL ∧ b ≠ exitL) := by
  cases stmt with
  | simple n =>
      simp only [ir_statement, Option.some.injEq, Prod.mk.injEq] at h
      obtain ⟨hc, hs⟩ := h
      subst hc
      subst hs
      refine ⟨Nat.le_refl s, ?_, ?_⟩
      · simp [countGotoTo, numReturns]
      · intro n2 a b hb
        simp at hb
  | ret e =>
      cases e with
      | none =>
          simp only [ir_statement, Option.some.injEq, Prod.mk.injEq] at h
          obtain ⟨hc, hs⟩ := h
          subst hc
          subst hs
          refine ⟨Nat.le_refl s, ?_, ?_⟩
          · simp [countGotoTo, numReturns]
          · intro n2 a b hb
            simp at hb
      | some e =>
          simp only [ir_statement, Option.some.injEq, Prod.mk.injEq] at h
          obtain ⟨hc, hs⟩ := h
          subst hc
          subst hs
          have hm := emitExpr_mono e s
          have hj := emitExpr_jumps e s
          refine ⟨hm, ?_, ?_⟩
          · rw [countGotoTo_append]
            rw [countGotoTo_eq_zero exitL (emitExpr e s).1 ?hgoto]
            · simp [countGotoTo, numReturns]
            · intro i hi hcon
              subst hcon
              have := hj.2 exitL hi
              omega
          · intro n2 a b hb
            rcases List.mem_append.mp hb with hb | hb
            · have := hj.1 n2 a b hb
              omega
            · simp at hb
  | sbreak =>
      cases st with
      | nil => simp [ir_statement] at h
      | cons top rest =>
          simp only [ir_statement, Option.some.injEq, Prod.mk.injEq] at h
          obtain ⟨hc, hs⟩ := h
          subst hc
          subst hs
          have htop := hst top (List.mem_cons_self _ _)
          refine ⟨Nat.le_refl s, ?_, ?_⟩
          · apply countGotoTo_eq_zero
            intro i hi
            simp at hi
            subst hi
            intro hcon
            have : top.2 = exitL := by
              injection hcon
            omega
          · intro n2 a b hb
            simp at hb
  | scont =>
      cases st with
      | nil => simp [ir_statement] at h
      | cons top rest =>
          simp only [ir_statement, Option.some.injEq, Prod.mk.injEq] at h
          obtain ⟨hc, hs⟩ := h
          subst hc
          subst hs
          have htop := hst top (List.mem_cons_self _ _)
          refine ⟨Nat.le_refl s, ?_, ?_⟩
          · apply countGotoTo_eq_zero
            intro i hi
            simp at hi
            subst hi
            intro hcon
            have : top.1 = exitL := by
              injection hcon
            omega
          · intro n2 a b hb
            simp at hb
  | sif c th el =>
      cases el with
      | none =>
          simp only [ir_statement] at h
          cases hth : ir_stmt_list th st exitL retSlot
              (generate_branch_for_condition c s (s + 1) (s + 2)).2 with
          | none => rw [hth] at h; cases h
          | some pair =>
              obtain ⟨tc, s4⟩ := pair
              rw [hth] at h
              simp only [Option.some.injEq, Prod.mk.injEq] at h
              obtain ⟨hc, hs⟩ := h
              subst hc
              subst hs
              have hgm := gbc_mono c s (s + 1) (s + 2)
              have hth2 := ir_stmt_list_spec th st exitL retSlot
                (generate_branch_for_condition c s (s + 1) (s + 2)).2 tc s4
                (by omega) hst hth
              refine ⟨by omega, ?_, ?_⟩
              · simp only [countGotoTo_append]
                rw [gbc_countGotoTo]
                have h1 : countGotoTo exitL [GInst.label s] = 0 := by
                  apply countGotoTo_eq_zero
                  intro i hi
                  simp at hi
                  subst hi
                  simp
                have h2 : countGotoTo exitL
                    [GInst.goto (s + 1), GInst.label (s + 1)] = 0 := by
                  apply countGotoTo_eq_zero
                  intro i hi
                  simp at hi
                  rcases hi with hi | hi <;> subst hi <;> intro hcon
                  · have : s + 1 = exitL := by injection hcon
                    omega
                  · simp at hcon
                rw [h1, h2, hth2.2.1]
                simp [numReturns]
              · intro n a b hb
                rcases List.mem_append.mp hb with hb | hb
                · rcases List.mem_append.mp hb with hb | hb
                  · rcases List.mem_append.mp hb with hb | hb
                    · have := gbc_branch_targets c s (s + 1) (s + 2) n a b hb
                      omega
                    · simp at hb
                  · exact hth2.2.2 n a b hb
                · simp at hb
      | some es =>
          simp only [ir_statement] at h
          cases hth : ir_stmt_list th st exitL retSlot
              (generate_branch_for_condition c s (s + 2) (s + 3)).2 with
          | none => rw [hth] at h; cases h
          | some pairT =>
              obtain ⟨tc, s4⟩ := pairT
              rw [hth] at h
              dsimp only at h
              cases hes : ir_stmt_list es st exitL retSlot s4 with
              | none => rw [hes] at h; cases h
              | some pairE =>
                  obtain ⟨ec, s5⟩ := pairE
                  rw [hes] at h
                  simp only [Option.some.injEq, Prod.mk.injEq] at h
                  obtain ⟨hc, hs⟩ := h
                  subst hc
                  subst hs
                  have hgm := gbc_mono c s (s + 2) (s + 3)
                  have hth2 := ir_stmt_list_spec th st exitL retSlot
                    (generate_branch_for_condition c s (s + 2) (s + 3)).2 tc s4
                    (by omega) hst hth
                  have hes2 := ir_stmt_list_spec es st exitL retSlot s4 ec s5
                    (by omega) hst hes
                  refine ⟨by omega, ?_, ?_⟩
                  · simp only [countGotoTo_append]
                    rw [gbc_countGotoTo]
                    have h1 : countGotoTo exitL [GInst.label s] = 0 := by
                      apply countGotoTo_eq_zero
                      intro i hi
                      simp at hi
                      subst hi
                      simp
                    have h2 : countGotoTo exitL
                        [GInst.goto (s + 1), GInst.label (s + 2)] = 0 := by
                      apply countGotoTo_eq_zero
                      intro i hi
                      simp at hi
                      rcases hi with hi | hi <;> subst hi <;> intro hcon
                      · have : s + 1 = exitL := by injection hcon
                        omega
                      · simp at hcon
                    have h3 : countGotoTo exitL [GInst.label (s + 1)] = 0 := by
                      apply countGotoTo_eq_zero
                      intro i hi
                      simp at hi
                      subst hi
                      simp
                    rw [h1, h2, h3, hth2.2.1, hes2.2.1]
                    simp [numReturns]
                  · intro n a b hb
                    rcases List.mem_append.mp hb with hb | hb
                    · rcases List.mem_append.mp hb with hb | hb
                      · rcases List.mem_append.mp hb with hb | hb
                        · rcases List.mem_append.mp hb with hb | hb
                          · rcases List.mem_append.mp hb with hb | hb
                            · have := gbc_branch_targets c s (s + 2) (s + 3) n a b hb
                              omega
                            · simp at hb
                          · exact hth2.2.2 n a b hb
                        · simp at hb
                      · exact hes2.2.2 n a b hb
                    · simp at hb
  | swhile c body =>
      simp only [ir_statement] at h
      cases hb : ir_stmt_list body ((s, s + 2) :: st) exitL retSlot
          (generate_branch_for_condition c (s + 1) (s + 2) (s + 3)).2 with
      | none => rw [hb] at h; cases h
      | some pairB =>
          obtain ⟨bc, s4⟩ := pairB
          rw [hb] at h
          simp only [Option.some.injEq, Prod.mk.injEq] at h
          obtain ⟨hc, hs⟩ := h
          subst hc
          subst hs
          have hgm := gbc_mono c (s + 1) (s + 2) (s + 3)
          have hst2 : ∀ pr ∈ ((s, s + 2) :: st), exitL < pr.1 ∧ exitL < pr.2 := by
            intro pr hpr
            rcases List.mem_cons.mp hpr with hpr | hpr
            · subst hpr
              exact ⟨by omega, by omega⟩
            · exact hst pr hpr
          have hb2 := ir_stmt_list_spec body ((s, s + 2) :: st) exitL retSlot
            (generate_branch_for_condition c (s + 1) (s + 2) (s + 3)).2 bc s4
            (by omega) hst2 hb
          refine ⟨by omega, ?_, ?_⟩
          · simp only [countGotoTo_append]
            rw [gbc_countGotoTo]
            have h1 : countGotoTo exitL [GInst.label s] = 0 := by
              apply countGotoTo_eq_zero
              intro i hi
              simp at hi
              subst hi
              simp
            have h2 : countGotoTo exitL [GInst.label (s + 1)] = 0 := by
              apply countGotoTo_eq_zero
              intro i hi
              simp at hi
              subst hi
              simp
            have h3 : countGotoTo exitL
                [GInst.goto s, GInst.label (s + 2)] = 0 := by
              apply countGotoTo_eq_zero
              intro i hi
              simp at hi
              rcases hi with hi | hi <;> subst hi <;> intro hcon
              · have : s = exitL := by injection hcon
                omega
              · simp at hcon
            rw [h1, h2, h3, hb2.2.1]
            simp [numReturns]
          · intro n a b hbr
            rcases List.mem_append.mp hbr with hbr | hbr
            · rcases List.mem_append.mp hbr with hbr | hbr
              · rcases List.mem_append.mp hbr with hbr | hbr
                · rcases List.mem_append.mp hbr with hbr | hbr
                  · simp at hbr
                  · have := gbc_branch_targets c (s + 1) (s + 2) (s + 3) n a b hbr
                    omega
                · simp at hbr
              · exact hb2.2.2 n a b hbr
            · simp at hbr

theorem ir_stmt_list_spec (l : StmtList) (st : List (Nat × Nat))
    (exitL retSlot s : Nat) (code : List GInst) (sf : Nat)
    (hex : exitL < s) (hst : ∀ pr ∈ st, exitL < pr.1 ∧ exitL < pr.2)
    (h : ir_stmt_list l st exitL retSlot s = some (code, sf)) :
    s ≤ sf ∧ countGotoTo exitL code = numReturnsList l ∧
    (∀ n a b, GInst.branch n a b ∈ code → a ≠ exitL ∧ b ≠ exitL) := by
  cases l with
  | nil =>
      simp only [ir_stmt_list, Option.some.injEq, Prod.mk.injEq] at h
      obtain ⟨hc, hs⟩ := h
      subst hc
      subst hs
      exact ⟨Nat.le_refl s, by simp [countGotoTo, numReturnsList], by intro n a b hb; simp at hb⟩
  | cons x xs =>
      simp only [ir_stmt_list] at h
      cases h1 : ir_statement x st exitL retSlot s with
      | none => rw [h1] at h; cases h
      | some pair1 =>
          obtain ⟨c1, s1⟩ := pair1
          rw [h1] at h
          dsimp only at h
          cases h2 : ir_stmt_list xs st exitL retSlot s1 with
          | none => rw [h2] at h; cases h
          | some pair2 =>
              obtain ⟨c2, s2⟩ := pair2
              rw [h2] at h
              simp only [Option.some.injEq, Prod.mk.injEq] at h
              obtain ⟨hc, hs⟩ := h
              subst hc
              subst hs
              have hx := ir_statement_spec x st exitL retSlot s c1 s1 hex hst h1
              have hxs := ir_stmt_list_spec xs st exitL retSlot s1 c2 s2
                (by omega) hst h2
              refine ⟨by omega, ?_, ?_⟩
              · rw [countGotoTo_append, hx.2.1, hxs.2.1]
                simp [numReturnsList]
              · intro n a b hb
                rcases List.mem_append.mp hb with hb | hb
                · exact hx.2.2 n a b hb
                · exact hxs.2.2 n a b hb
end

theorem countGotoTo_cons_ne (l : Nat) (x : GInst) (xs : List GInst)
    (h : x ≠ GInst.goto l) :
    countGotoTo l (x :: xs) = countGotoTo l xs := by
  simp [countGotoTo, List.countP_cons, h]

/-- C4: in every successfully translated function the instruction list is
Entry, then the body (parameter moves, main's zero-init, statements), then
the exit label immediately followed by Exit reading the return slot; no
conditional branch ever targets the exit label, and the gotos that target it
are exactly one per return statement; a return with an expression lowers to
the expression's code, Move(returnSlot, value), goto exitLabel, and a bare
return to goto exitLabel alone. -/
theorem ir_function_define_shape (p : Nat) (isMain hasRet : Bool)
    (body : StmtList) (code : List GInst) (sf : Nat)
    (h : ir_function_define p isMain hasRet body = some (code, sf)) :
    (∃ mid, code = GInst.entry :: mid ++
        [GInst.label (2 + p),
         GInst.exitI (if hasRet then some (2 + p + 1 + p) else none)]) ∧
    countGotoTo (2 + p) code = numReturnsList body ∧
    (∀ n a b, GInst.branch n a b ∈ code → a ≠ 2 + p ∧ b ≠ 2 + p) ∧
    (∀ (e : Expr) (st : List (Nat × Nat)) (exitL retSlot s : Nat),
      ir_statement (Stmt.ret (some e)) st exitL retSlot s =
        some ((emitExpr e s).1 ++
          [GInst.move retSlot (emitExpr e s).2.1, GInst.goto exitL],
          (emitExpr e s).2.2)) ∧
    (∀ (st : List (Nat × Nat)) (exitL retSlot s : Nat),
      ir_statement (Stmt.ret none) st exitL retSlot s =
        some ([GInst.goto exitL], s)) := by
  simp only [ir_function_define] at h
  cases hbody : ir_stmt_list body [] (2 + p) (2 + p + 1 + p)
      (if hasRet then 2 + p + 1 + p + 1 else 2 + p + 1 + p) with
  | none => rw [hbody] at h; cases h
  | some pair =>
      obtain ⟨bc, sEnd⟩ := pair
      rw [hbody] at h
      dsimp only at h
      simp only [Option.some.injEq, Prod.mk.injEq] at h
      obtain ⟨hc, hs⟩ := h
      subst hc
      subst hs
      have hex : 2 + p < (if hasRet then 2 + p + 1 + p + 1 else 2 + p + 1 + p) := by
        cases hasRet <;> simp <;> omega
      have hspec := ir_stmt_list_spec body [] (2 + p) (2 + p + 1 + p)
        (if hasRet then 2 + p + 1 + p + 1 else 2 + p + 1 + p) bc sEnd
        hex (by simp) hbody
      refine ⟨?_, ?_, ?_, ?_, ?_⟩
      · refine ⟨(List.range p).map (fun i => GInst.move (2 + p + 1 + i) (2 + i)) ++
          ((if isMain && hasRet then [GInst.move (2 + p + 1 + p) 0] else []) ++ bc), ?_⟩
        simp [List.append_assoc]
      · rw [countGotoTo_cons_ne _ _ _ (by simp)]
        rw [countGotoTo_append, countGotoTo_append, countGotoTo_append]
        have hpm : countGotoTo (2 + p)
            ((List.range p).map (fun i => GInst.move (2 + p + 1 + i) (2 + i))) = 0 := by
          apply countGotoTo_eq_zero
          intro i hi
          rcases List.mem_map.mp hi with ⟨j, _, hj⟩
          subst hj
          simp
        have hmi : countGotoTo (2 + p)
            (if isMain && hasRet then [GInst.move (2 + p + 1 + p) 0] else []) = 0 := by
          cases h2 : (isMain && hasRet) <;> simp [countGotoTo]
        have htail : countGotoTo (2 + p)
            [GInst.label (2 + p),
             GInst.exitI (if hasRet then some (2 + p + 1 + p) else none)] = 0 := by
          simp [countGotoTo]
        rw [hpm, hmi, htail, hspec.2.1]
        omega
      · intro n a b hb
        rcases List.mem_cons.mp hb with hb | hb
        · cases hb
        · rcases List.mem_append.mp hb with hb | hb
          · rcases List.mem_map.mp hb with ⟨j, _, hj⟩
            simp at hj
          · rcases List.mem_append.mp hb with hb | hb
            · revert hb
              cases h2 : (isMain && hasRet) <;> simp
            · rcases List.mem_append.mp hb with hb | hb
              · exact hspec.2.2 n a b hb
              · simp at hb
      · intro e st exitL retSlot s
        rfl
      · intro st exitL retSlot s
        rfl

/-- Witness: the function int main()\x7b return 9; \x7d — one formal-free main
with a single return — lowers to [Entry, Move(ret,0), work, Move(ret,v),
goto exit, exit label, Exit(ret)], with exactly one goto to the exit label. -/
theorem ir_function_define_shape_witness :
    (∃ mid, [GInst.entry, GInst.move 3 0, GInst.work 9, GInst.move 3 9,
        GInst.goto 2, GInst.label 2, GInst.exitI (some 3)] =
      GInst.entry :: mid ++
        [GInst.label (2 + 0),
         GInst.exitI (if true then some (2 + 0 + 1 + 0) else none)]) ∧
    countGotoTo (2 + 0) [GInst.entry, GInst.move 3 0, GInst.work 9,
        GInst.move 3 9, GInst.goto 2, GInst.label 2, GInst.exitI (some 3)] =
      numReturnsList (StmtList.cons (Stmt.ret (some (Expr.atomE 9))) StmtList.nil) ∧
    (∀ n a b, GInst.branch n a b ∈ [GInst.entry, GInst.move 3 0, GInst.work 9,
        GInst.move 3 9, GInst.goto 2, GInst.label 2, GInst.exitI (some 3)] →
      a ≠ 2 + 0 ∧ b ≠ 2 + 0) ∧
    (∀ (e : Expr) (st : List (Nat × Nat)) (exitL retSlot s : Nat),
      ir_statement (Stmt.ret (some e)) st exitL retSlot s =
        some ((emitExpr e s).1 ++
          [GInst.move retSlot (emitExpr e s).2.1, GInst.goto exitL],
          (emitExpr e s).2.2)) ∧
    (∀ (st : List (Nat × Nat)) (exitL retSlot s : Nat),
      ir_statement (Stmt.ret none) st exitL retSlot s =
        some ([GInst.goto exitL], s)) :=
  ir_function_define_shape 0 true true
    (StmtList.cons (Stmt.ret (some (Expr.atomE 9))) StmtList.nil)
    [GInst.entry, GInst.move 3 0, GInst.work 9, GInst.move 3 9,
      GInst.goto 2, GInst.label 2, GInst.exitI (some 3)] 4 rfl

/-- C5: break (respectively continue) with an empty loop stack fails with a
semantic error; with a non-empty stack it emits exactly one goto, to the
break (respectively continue) target of the top entry; a while statement
translates its body with (condition-check label, loop-exit label) pushed on
the stack and leaves the stack unchanged for what follows (the stack is
passed, not mutated, so siblings see the caller's stack); concretely, a
break directly inside a while becomes a goto to that while's exit label. -/
theorem break_continue_loop_stack :
    (∀ exitL retSlot s, ir_statement Stmt.sbreak [] exitL retSlot s = none) ∧
    (∀ exitL retSlot s, ir_statement Stmt.scont [] exitL retSlot s = none) ∧
    (∀ (top : Nat × Nat) (rest : List (Nat × Nat)) (exitL retSlot s : Nat),
      ir_statement Stmt.sbreak (top :: rest) exitL retSlot s =
        some ([GInst.goto top.2], s)) ∧
    (∀ (top : Nat × Nat) (rest : List (Nat × Nat)) (exitL retSlot s : Nat),
      ir_statement Stmt.scont (top :: rest) exitL retSlot s =
        some ([GInst.goto top.1], s)) ∧
    (∀ (c : Cond) (body : StmtList) (st : List (Nat × Nat)) (exitL retSlot s : Nat),
      ir_statement (Stmt.swhile c body) st exitL retSlot s =
        match ir_stmt_list body ((s, s + 2) :: st) exitL retSlot
            (generate_branch_for_condition c (s + 1) (s + 2) (s + 3)).2 with
        | none => none
        | some (bc, s4) =>
            some (((([GInst.label s] ++
              (generate_branch_for_condition c (s + 1) (s + 2) (s + 3)).1) ++
              [GInst.label (s + 1)]) ++ bc) ++
              [GInst.goto s, GInst.label (s + 2)], s4)) ∧
    ir_statement
        (Stmt.swhile (Cond.atom 0) (StmtList.cons Stmt.sbreak StmtList.nil))
        [] 0 0 5 =
      some ([GInst.label 5, GInst.work 0, GInst.branch 0 6 7, GInst.label 6,
        GInst.goto 7, GInst.goto 5, GInst.label 7], 8) := by
  refine ⟨fun _ _ _ => rfl, fun _ _ _ => rfl, ?_, ?_, fun _ _ _ _ _ _ => rfl, rfl⟩
  · intro top rest exitL retSlot s
    rfl
  · intro top rest exitL retSlot s
    rfl

end IRGen
